import Mathlib

/-!
Verification of the dynamic batching scheduler of the
`text-generation-inference` router, a shallow embedding of
`src/router/src/infer.rs`.

Conventions of the embedding:
* `Instant` timestamps become `Nat` (a logical clock); durations never matter
  to the properties below, only which timestamp is forwarded where.
* `f32` log-probabilities become `Int`: no property depends on their value.
* A Rust panic (`expect` / `unwrap`) is modelled by an `Except PanicKind`
  result: `.error` means the dispatcher aborted.
* The per-request response channels (`response_tx`) are modelled by a trace:
  a list of `(request id, message)` pairs in the order the dispatcher sent
  them.  `unwrap_or(())` on a send means a send never fails, so the trace
  records every send.
-/

namespace Router

/-- Prompt tokens with their log-probabilities (`PrefillTokens` of the backend
protocol). -/
structure PrefillTokens where
  ids : List Nat
  logprobs : List Int
  texts : List String
  deriving Repr, DecidableEq

/-- A decoded token `Token(id, text, logprob)`. -/
structure Token where
  id : Nat
  text : String
  logprob : Int
  deriving Repr, DecidableEq

/-- Terminal output of a request (`GeneratedText` of the backend protocol). -/
structure GeneratedText where
  text : String
  generated_tokens : Nat
  finish_reason : String
  seed : Option Nat
  deriving Repr, DecidableEq

/-- One per-request result returned by a backend `prefill` or `decode` call. -/
structure Generation where
  request_id : Nat
  prefill_tokens : Option PrefillTokens
  token_id : Nat
  token_text : String
  token_logprob : Int
  generated_text : Option GeneratedText
  deriving Repr, DecidableEq

/-- The opaque backend batch descriptor (`Batch` of the backend protocol):
its id, the request ids it contains, and its size. -/
structure Batch where
  id : Nat
  requestIds : List Nat
  size : Nat
  deriving Repr, DecidableEq

/-- `InferError` of `infer.rs`. -/
inductive InferError where
  | GenerationError (msg : String)
  | Overloaded
  | ValidationError (msg : String)
  | IncompleteGeneration
  deriving Repr, DecidableEq

/-- `InferStreamResponse` of `infer.rs`: the values delivered on a
per-request stream. -/
inductive InferStreamResponse where
  | Prefill (tokens : PrefillTokens)
  | Token (token : Token)
  | End (token : Token) (generated_text : GeneratedText) (start : Nat)
      (queued : Nat)
  deriving Repr, DecidableEq

/-- An `Entry` of `infer.rs`: one admitted request.  The admission permit and
the sending half of the response channel are not data; `closed` records
whether the client has dropped the receiving half. -/
structure Entry where
  input_length : Nat
  time : Nat
  batch_time : Option Nat
  closed : Bool
  deriving Repr, DecidableEq

/-- The entries view handed to the dispatcher: the `IntMap<u64, Entry>` of
`infer.rs`, as an association list with distinct keys. -/
abbrev Entries := List (Nat × Entry)

/-- One value sent on a per-request stream:
`Result<InferStreamResponse, InferError>`. -/
abbrev Msg := Except InferError InferStreamResponse

/-- The trace of all sends, in order: pairs of request id and message. -/
abbrev Trace := List (Nat × Msg)

deriving instance DecidableEq for Except

/-- The two panics reachable in `send_generations`: a generation whose
request id is absent from the entries view (`expect` on `get` / `remove`),
and a terminal entry whose `batch_time` was never set (`unwrap`). -/
inductive PanicKind where
  | idNotFound
  | noBatchTime
  deriving Repr, DecidableEq

/-- `IntMap::get` on the entries view. -/
def lookupEntry : Entries → Nat → Option Entry
  | [], _ => none
  | (i, e) :: rest, r => if i = r then some e else lookupEntry rest r

/-- `IntMap::remove` on the entries view (keys are distinct, so removing the
first binding is removal of the binding). -/
def removeEntry : Entries → Nat → Entries
  | [], _ => []
  | (i, e) :: rest, r => if i = r then rest else (i, e) :: removeEntry rest r

/-- The body of `send_generations` for a single generation: look the entry up
by `request_id` (panic if absent), send `Prefill` when the generation carries
prefill tokens, then either remove the entry and send `End` (terminal) or
send `Token`.  Returns the updated view and the messages sent. -/
def sendOne (entries : Entries) (g : Generation) :
    Except PanicKind (Entries × Trace) :=
  match lookupEntry entries g.request_id with
  | none => .error .idNotFound
  | some entry =>
    let prefillMsgs : Trace :=
      match g.prefill_tokens with
      | some pt => [(g.request_id, .ok (.Prefill pt))]
      | none => []
    let token : Token := ⟨g.token_id, g.token_text, g.token_logprob⟩
    match g.generated_text with
    | some gt =>
      match entry.batch_time with
      | none => .error .noBatchTime
      | some bt =>
        .ok (removeEntry entries g.request_id,
          prefillMsgs ++ [(g.request_id, .ok (.End token gt bt entry.time))])
    | none =>
      .ok (entries, prefillMsgs ++ [(g.request_id, .ok (.Token token))])

/-- `send_generations` of `infer.rs`: fan a list of generations out to the
entries view, in order. -/
def send_generations (gens : List Generation) (entries : Entries) :
    Except PanicKind (Entries × Trace) :=
  match gens with
  | [] => .ok (entries, [])
  | g :: rest => do
    let (entries1, tr1) ← sendOne entries g
    let (entries2, tr2) ← send_generations rest entries1
    .ok (entries2, tr1 ++ tr2)

/-- `send_error` of `infer.rs`: drain the entries view, sending
`GenerationError` to every entry. -/
def send_error (err : String) (entries : Entries) : Entries × Trace :=
  ([], entries.map (fun p => (p.1, .error (.GenerationError err))))

/-- The resolved outcome of a backend `prefill` or `decode` call:
`Result<(Vec<Generation>, Option<Batch>), ClientError>`. -/
abbrev ClientResult := Except String (List Generation × Option Batch)

/-- `wrap_future` of `infer.rs`: on success fan the generations out and pass
the next batch descriptor through; on a client error discard the whole batch,
sending one error to every entry. -/
def wrap_future (res : ClientResult) (entries : Entries) :
    Except PanicKind (Option Batch × Entries × Trace) :=
  match res with
  | .ok (gens, next_batch) => do
    let (entries1, tr) ← send_generations gens entries
    .ok (next_batch, entries1, tr)
  | .error err =>
    let (entries1, tr) := send_error err entries
    .ok (none, entries1, tr)

/-- Modelled from the spec: the Queue (`Db`) implementation is not among the
sources, only `infer.rs` calls it.  Per §3 and §4.2 of the spec it is an
id-ordered map of admitted entries with a strictly increasing id counter; a
batch-id counter is added for the backend descriptors it builds. -/
structure Db where
  entries : List (Nat × Entry)
  counter : Nat
  batchCounter : Nat
  deriving Repr, DecidableEq, Inhabited

/-- Modelled from the spec (§4.2): `append(entry) -> id` assigns the next id,
inserts at the tail (id order), returns the id. -/
def Db.append (db : Db) (e : Entry) : Db × Nat :=
  ({ entries := db.entries ++ [(db.counter, e)], counter := db.counter + 1,
     batchCounter := db.batchCounter }, db.counter)

/-- Modelled from the spec (§4.2): `next_batch(min_size, max_size)` scans in
id order, drops entries whose client has disconnected, accumulates up to
`max_size` live entries, and returns nothing (mutating nothing) when the
accumulated count is below `min_size` or zero.  On success the selected
entries leave the queue and form the entries view handed to the dispatcher
— §4.3 step 2a's `batch_started_at := now` marking, invisible in
`infer.rs`, happens here — together with the backend batch descriptor. -/
def Db.next_batch (db : Db) (min_size : Option Nat) (max_size : Nat)
    (now : Nat) : Option (Entries × Batch × Db) :=
  let live := db.entries.filter (fun p => !p.2.closed)
  let selected := live.take max_size
  let belowMin : Bool :=
    match min_size with
    | some m => selected.length < m
    | none => false
  if selected.length = 0 || belowMin then none
  else
    some (selected.map (fun p => (p.1, { p.2 with batch_time := some now })),
      { id := db.batchCounter, requestIds := selected.map Prod.fst,
        size := selected.length },
      { entries := live.drop max_size, counter := db.counter,
        batchCounter := db.batchCounter + 1 })

/-- The scheduler configuration handed to `batching_task`. -/
structure Config where
  maxBatchSize : Nat
  maxWaitingTokens : Nat
  deriving Repr, DecidableEq

/-- The backend's replies consumed by one iteration of the decode loop:
what `client.prefill` would answer for newly onboarded entries (used only
when the queue yields some), and what `client.decode` answers. -/
structure StepEnv where
  extPrefill : ClientResult
  decode : ClientResult
  deriving Repr, DecidableEq

/-- What one iteration of the decode loop did, recorded for the theorems:
the arguments of the `next_batch` consultation if one happened, whether the
queue returned newcomers, whether they were merged, and the exact descriptor
list and entries view passed to `client.decode`. -/
structure StepLog where
  waitingAtStart : Nat
  dbCall : Option (Option Nat × Nat)
  dbReturned : Bool
  merged : Bool
  decodeBatches : List Batch
  decodeEntries : Entries
  deriving Repr, DecidableEq, Inhabited

/-- Outcome of the in-flight-extension half of a decode-loop iteration. -/
structure ExtOutcome where
  entries : Entries
  batches : List Batch
  waiting_tokens : Nat
  db : Db
  clock : Nat
  sent : Trace
  dbCall : Option (Option Nat × Nat)
  dbReturned : Bool
  merged : Bool
  deriving Repr, DecidableEq

/-- The in-flight extension attempt of `batching_task`'s decode loop
(`infer.rs` lines 203-228): if the current batch size is at most
`max_batch_size / 2`, consult the queue — with `min_size = none` once
`waiting_tokens >= max_waiting_tokens`, else `min_size = max_batch_size / 2`
— prefill any newcomers, reset `waiting_tokens` to 1, and merge them when
their prefill produced a cached batch. -/
def tryExtend (cfg : Config) (extPrefill : ClientResult) (entries : Entries)
    (batch : Batch) (waiting_tokens : Nat) (db : Db) (clock : Nat) :
    Except PanicKind ExtOutcome :=
  let limit_min_batch_size := cfg.maxBatchSize / 2
  let batch_size := batch.size
  if batch_size ≤ limit_min_batch_size then
    let min_size : Option Nat :=
      if waiting_tokens ≥ cfg.maxWaitingTokens then none
      else some limit_min_batch_size
    match db.next_batch min_size (cfg.maxBatchSize - batch_size) clock with
    | some (new_entries, _new_batch, db1) => do
      let (new_cached, new_entries1, tr1) ← wrap_future extPrefill new_entries
      match new_cached with
      | some new_cached_batch =>
        .ok { entries := entries ++ new_entries1,
              batches := [batch, new_cached_batch], waiting_tokens := 1,
              db := db1, clock := clock + 1, sent := tr1,
              dbCall := some (min_size, cfg.maxBatchSize - batch_size),
              dbReturned := true, merged := true }
      | none =>
        .ok { entries := entries, batches := [batch], waiting_tokens := 1,
              db := db1, clock := clock + 1, sent := tr1,
              dbCall := some (min_size, cfg.maxBatchSize - batch_size),
              dbReturned := true, merged := false }
    | none =>
      .ok { entries := entries, batches := [batch],
            waiting_tokens := waiting_tokens, db := db, clock := clock + 1,
            sent := [],
            dbCall := some (min_size, cfg.maxBatchSize - batch_size),
            dbReturned := false, merged := false }
  else
    .ok { entries := entries, batches := [batch],
          waiting_tokens := waiting_tokens, db := db, clock := clock + 1,
          sent := [], dbCall := none, dbReturned := false, merged := false }

/-- Result of one full iteration of the decode loop. -/
structure StepResult where
  entries : Entries
  cached : Option Batch
  waiting_tokens : Nat
  db : Db
  clock : Nat
  sent : Trace
  log : StepLog
  deriving Repr, DecidableEq, Inhabited

/-- One iteration of `batching_task`'s decode loop (`infer.rs` lines
198-232): the extension attempt, then `decode` on the accumulated
descriptors through `wrap_future`, then `waiting_tokens += 1`. -/
def decodeStep (cfg : Config) (env : StepEnv) (entries : Entries)
    (batch : Batch) (waiting_tokens : Nat) (db : Db) (clock : Nat) :
    Except PanicKind StepResult := do
  let ext ← tryExtend cfg env.extPrefill entries batch waiting_tokens db clock
  let (cached1, entries2, tr2) ← wrap_future env.decode ext.entries
  .ok { entries := entries2, cached := cached1,
        waiting_tokens := ext.waiting_tokens + 1, db := ext.db,
        clock := ext.clock, sent := ext.sent ++ tr2,
        log := { waitingAtStart := waiting_tokens, dbCall := ext.dbCall,
                 dbReturned := ext.dbReturned, merged := ext.merged,
                 decodeBatches := ext.batches, decodeEntries := ext.entries } }

/-- The decode loop of `batching_task`: iterate `decodeStep` while a cached
batch remains.  The list of step environments is the window of backend
replies observed; the run stops when it is exhausted. -/
def decodeLoop (cfg : Config) (envs : List StepEnv) (entries : Entries)
    (cached : Option Batch) (waiting_tokens : Nat) (db : Db) (clock : Nat)
    (trace : Trace) : Except PanicKind (Db × Nat × Trace) :=
  match cached with
  | none => .ok (db, clock, trace)
  | some batch =>
    match envs with
    | [] => .ok (db, clock, trace)
    | env :: rest => do
      let r ← decodeStep cfg env entries batch waiting_tokens db clock
      decodeLoop cfg rest r.entries r.cached r.waiting_tokens r.db r.clock
        (trace ++ r.sent)

/-- The backend's replies for one batch drained from the queue: the initial
prefill reply, then one `StepEnv` per decode-loop iteration. -/
structure BatchEnv where
  prefill : ClientResult
  steps : List StepEnv
  deriving Repr, DecidableEq

/-- The drain-work loop of `batching_task` (`infer.rs` lines 192-233):
while `next_batch(none, max_batch_size)` yields a batch, prefill it, set
`waiting_tokens := 1` and enter the decode loop. -/
def drainWork (cfg : Config) (benvs : List BatchEnv) (db : Db) (clock : Nat)
    (trace : Trace) : Except PanicKind (Db × Nat × Trace) :=
  match benvs with
  | [] => .ok (db, clock, trace)
  | benv :: rest =>
    match db.next_batch none cfg.maxBatchSize clock with
    | none => .ok (db, clock, trace)
    | some (entries, _batch, db1) => do
      let (cached, entries1, tr1) ← wrap_future benv.prefill entries
      let (db2, clock2, trace2) ←
        decodeLoop cfg benv.steps entries1 cached 1 db1 (clock + 1)
          (trace ++ tr1)
      drainWork cfg rest db2 clock2 trace2

/-- One event of a dispatcher run: a concurrent producer appends an admitted
entry, or a notification wakes the dispatcher for one drain-work pass. -/
inductive RunEvent where
  | append (e : Entry)
  | drain (benvs : List BatchEnv)
  deriving Repr, DecidableEq

/-- A whole observed dispatcher run: the infinite loop of `batching_task`,
interleaved with appends by the facade. -/
def run (cfg : Config) (events : List RunEvent) (db : Db) (clock : Nat)
    (trace : Trace) : Except PanicKind (Db × Nat × Trace) :=
  match events with
  | [] => .ok (db, clock, trace)
  | .append e :: rest => run cfg rest (db.append e).1 clock trace
  | .drain benvs :: rest => do
    let (db1, clock1, trace1) ← drainWork cfg benvs db clock trace
    run cfg rest db1 clock1 trace1

/-- Outcome of `Infer::generate_stream`: the returned value (the new entry's
id standing for its stream on success), and the facade-visible state after
the call — permits still available, the queue, and whether the dispatcher
was notified. -/
structure GenStreamResult where
  result : Except InferError Nat
  gate : Nat
  db : Db
  notified : Bool
  deriving Repr, DecidableEq

/-- `Infer::generate_stream` (`infer.rs` lines 72-102): `try_acquire` a
permit (Overloaded when none is available), validate (the permit drops on
failure), build the entry, append it to the queue and notify the batching
task.  `gate` counts the permits available; validation is the resolved
outcome of the validator, `(input_length, request)`. -/
def generate_stream (gate : Nat) (validation : Except String (Nat × Nat))
    (db : Db) (now : Nat) : GenStreamResult :=
  if gate = 0 then
    { result := .error .Overloaded, gate := gate, db := db, notified := false }
  else
    match validation with
    | .error msg =>
      { result := .error (.ValidationError msg), gate := gate, db := db,
        notified := false }
    | .ok (input_length, _validated) =>
      let (db1, id) := db.append
        { input_length := input_length, time := now, batch_time := none,
          closed := false }
      { result := .ok id, gate := gate - 1, db := db1, notified := true }

/-- `InferResponse` of `infer.rs`. -/
structure InferResponse where
  prefill : List Token
  tokens : List Token
  generated_text : GeneratedText
  queued : Nat
  start : Nat
  deriving Repr, DecidableEq

/-- The `Token` objects built from prefill tokens in `Infer::generate`:
`ids.zip(logprobs).zip(texts).map(|((id, logprob), text)| Token(id, text,
logprob))`. -/
def prefillToTokens (pt : PrefillTokens) : List Token :=
  ((pt.ids.zip pt.logprobs).zip pt.texts).map (fun p => ⟨p.1.1, p.2, p.1.2⟩)

/-- The stream-consuming loop of `Infer::generate` (`infer.rs` lines
119-150) over the values the stream delivered, with its four accumulators;
`response?` propagates an error item immediately. -/
def generateLoop (stream : List Msg) (result_prefill result_tokens : List Token)
    (result_generated_text : Option GeneratedText)
    (result_start result_queued : Option Nat) :
    Except InferError
      (List Token × List Token × Option GeneratedText × Option Nat ×
        Option Nat) :=
  match stream with
  | [] =>
    .ok (result_prefill, result_tokens, result_generated_text, result_start,
      result_queued)
  | response :: rest =>
    match response with
    | .error e => .error e
    | .ok (.Prefill tokens) =>
      generateLoop rest (prefillToTokens tokens) result_tokens
        result_generated_text result_start result_queued
    | .ok (.Token token) =>
      generateLoop rest result_prefill (result_tokens ++ [token])
        result_generated_text result_start result_queued
    | .ok (.End token generated_text start queued) =>
      generateLoop rest result_prefill (result_tokens ++ [token])
        (some generated_text) (some start) (some queued)

/-- `Infer::generate` (`infer.rs` lines 105-166), applied to the values its
stream delivered: consume the stream, then require that an `End` set the
`generated_text`, `queued` and `start` accumulators, else
`IncompleteGeneration`. -/
def generate (stream : List Msg) : Except InferError InferResponse :=
  match generateLoop stream [] [] none none none with
  | .error e => .error e
  | .ok (result_prefill, result_tokens, gt, st, q) =>
    match gt, q, st with
    | some generated_text, some queued, some start =>
      .ok { prefill := result_prefill, tokens := result_tokens,
            generated_text := generated_text, queued := queued,
            start := start }
    | _, _, _ => .error .IncompleteGeneration

/-- The values delivered on request `r`'s stream, in delivery order. -/
def streamOf (r : Nat) (tr : Trace) : List Msg :=
  (tr.filter (fun p => p.1 == r)).map Prod.snd

/-- The `Prefill` messages `sendOne` emits for one generation: one if the
generation carries prefill tokens, none otherwise. -/
def prefillTrace (g : Generation) : Trace :=
  match g.prefill_tokens with
  | some pt => [(g.request_id, .ok (.Prefill pt))]
  | none => []

/-- Is the message an intermediate `Token`? -/
def isTokenMsg : Msg → Bool
  | .ok (.Token _) => true
  | _ => false

/-- Is the message a `Prefill`? -/
def isPrefillMsg : Msg → Bool
  | .ok (.Prefill _) => true
  | _ => false

/-- Is the message a terminal `End`? -/
def isEndMsg : Msg → Bool
  | .ok (.End _ _ _ _) => true
  | _ => false

/-- Is the message an error? -/
def isErrMsg : Msg → Bool
  | .error _ => true
  | _ => false

/-- Is the message terminal (`End` or an error)? -/
def isTerminalMsg (m : Msg) : Bool := isEndMsg m || isErrMsg m

/-- `Token*` -/
def tokensOnly (ms : List Msg) : Bool := ms.all isTokenMsg

/-- `Token* (End | error)?` : intermediate tokens, optionally closed by one
terminal message. -/
def tokensThenTerminal : List Msg → Bool
  | [] => true
  | m :: rest =>
    (isTokenMsg m && tokensThenTerminal rest) ||
    (isTerminalMsg m && rest.isEmpty)

/-- `Prefill? Token*` : the shape of a stream whose request is still in
flight. -/
def openShape : List Msg → Bool
  | [] => true
  | m :: rest => if isPrefillMsg m then tokensOnly rest else tokensOnly (m :: rest)

/-- `Prefill? Token* (End | error)?` : the shape of any per-request stream. -/
def sessionShape : List Msg → Bool
  | [] => true
  | m :: rest =>
    if isPrefillMsg m then tokensThenTerminal rest
    else tokensThenTerminal (m :: rest)

/-- `Token* End` -/
def tokensThenEnd : List Msg → Bool
  | [] => false
  | m :: rest =>
    (isTokenMsg m && tokensThenEnd rest) || (isEndMsg m && rest.isEmpty)

/-- The claimed grammar `Prefill? Token* End` : at most one `Prefill` and
only first, zero or more `Token`s, exactly one `End`, nothing after it. -/
def endGrammar : List Msg → Bool
  | [] => false
  | m :: rest =>
    if isPrefillMsg m then tokensThenEnd rest else tokensThenEnd (m :: rest)

/-- Backend interface contract (§6 of the spec): a reply carries one
generation per still-alive request, so its request ids are distinct. -/
def distinctIds : ClientResult → Bool
  | .ok (gens, _) => decide (gens.map Generation.request_id).Nodup
  | .error _ => true

/-- Backend interface contract: prompt tokens are produced by `prefill`,
so a `decode` reply carries no prefill tokens. -/
def noPrefillTokens : ClientResult → Bool
  | .ok (gens, _) => gens.all (fun g => g.prefill_tokens.isNone)
  | .error _ => true

/-- A decode-loop step environment respecting the backend contract. -/
def stepEnvOK (se : StepEnv) : Bool :=
  distinctIds se.extPrefill && noPrefillTokens se.decode

/-- A batch environment respecting the backend contract. -/
def batchEnvOK (be : BatchEnv) : Bool :=
  distinctIds be.prefill && be.steps.all stepEnvOK

/-- A run whose backend replies all respect the backend contract. -/
def eventsOK : List RunEvent → Bool
  | [] => true
  | .append _ :: rest => eventsOK rest
  | .drain benvs :: rest => benvs.all batchEnvOK && eventsOK rest

/-- The per-iteration logs of a decode loop: the same recursion as
`decodeLoop`, keeping each step's `StepLog`. -/
def decodeLoopLogs (cfg : Config) (envs : List StepEnv) (entries : Entries)
    (cached : Option Batch) (waiting_tokens : Nat) (db : Db) (clock : Nat) :
    List StepLog :=
  match envs, cached with
  | env :: rest, some batch =>
    match decodeStep cfg env entries batch waiting_tokens db clock with
    | .ok r =>
      r.log :: decodeLoopLogs cfg rest r.entries r.cached r.waiting_tokens
        r.db r.clock
    | .error _ => []
  | _, _ => []

/-- Scenario 5 of the spec: `max_batch_size = 8`, `max_waiting_tokens = 3`. -/
def c2cfg : Config := { maxBatchSize := 8, maxWaitingTokens := 3 }

/-- Scenario 5: the two entries of the running batch. -/
def c2entries : Entries :=
  [(0, { input_length := 1, time := 0, batch_time := some 0, closed := false }),
   (1, { input_length := 1, time := 0, batch_time := some 0, closed := false })]

/-- Scenario 5: the cached descriptor of the running batch of size 2. -/
def c2batch : Batch := { id := 0, requestIds := [0, 1], size := 2 }

/-- Scenario 5: the queue holding the one newly submitted request (id 2). -/
def c2db : Db :=
  { entries := [(2, { input_length := 1, time := 5, batch_time := none,
                      closed := false })],
    counter := 3, batchCounter := 1 }

/-- A non-terminal decode generation for request `r`. -/
def c2tok (r : Nat) : Generation :=
  { request_id := r, prefill_tokens := none, token_id := 100 + r,
    token_text := "x", token_logprob := 0, generated_text := none }

/-- The prefill generation of the newcomer (id 2). -/
def c2newGen : Generation :=
  { request_id := 2,
    prefill_tokens := some { ids := [9], logprobs := [0], texts := ["p"] },
    token_id := 42, token_text := "a", token_logprob := 0,
    generated_text := none }

/-- Scenario 5, decode steps while the running batch stays at size 2. -/
def c2envA : StepEnv :=
  { extPrefill := .ok ([], none),
    decode := .ok ([c2tok 0, c2tok 1], some c2batch) }

/-- Scenario 5, the step on which the newcomer is onboarded: its prefill
yields a cached batch of size 1, the decode then covers all three. -/
def c2envB : StepEnv :=
  { extPrefill := .ok ([c2newGen], some { id := 1, requestIds := [2], size := 1 }),
    decode := .ok ([c2tok 0, c2tok 1, c2tok 2],
      some { id := 2, requestIds := [0, 1, 2], size := 3 }) }

/-- Scenario 5, a step after the merge (batch now of size 3). -/
def c2envC : StepEnv :=
  { extPrefill := .ok ([], none),
    decode := .ok ([c2tok 0, c2tok 1, c2tok 2],
      some { id := 2, requestIds := [0, 1, 2], size := 3 }) }

/-- Scenario 5's observed logs: four decode-loop iterations. -/
def c2logs : List StepLog :=
  decodeLoopLogs c2cfg [c2envA, c2envA, c2envB, c2envC] c2entries
    (some c2batch) 1 c2db 0

/-- The cached-batch component of a backend reply. -/
def clientCached : ClientResult → Option Batch
  | .ok (_, nb) => nb
  | .error _ => none

/-- Witness scenario: `max_batch_size = 4`, `max_waiting_tokens = 10`. -/
def wcfg : Config := { maxBatchSize := 4, maxWaitingTokens := 10 }

/-- Witness scenario: one running entry. -/
def wentries : Entries :=
  [(0, { input_length := 1, time := 0, batch_time := some 0, closed := false })]

/-- Witness scenario: the running batch of size 1. -/
def wbatch : Batch := { id := 0, requestIds := [0], size := 1 }

/-- Witness scenario: two requests waiting in the queue. -/
def wdb : Db :=
  { entries :=
      [(1, { input_length := 1, time := 2, batch_time := none, closed := false }),
       (2, { input_length := 1, time := 3, batch_time := none, closed := false })],
    counter := 3, batchCounter := 1 }

/-- Witness scenario: the queue yields the two newcomers but their prefill
fails with a backend error; the decode of the running batch succeeds. -/
def wenv : StepEnv :=
  { extPrefill := .error "backend unavailable",
    decode := .ok ([c2tok 0], some wbatch) }

/-- Witness scenario: the result of the decode-loop iteration. -/
def wres : StepResult :=
  match decodeStep wcfg wenv wentries wbatch 1 wdb 0 with
  | .ok r => r
  | .error _ => default

/-- Witness scenario: a step whose decode call fails. -/
def wenvErr : StepEnv :=
  { extPrefill := .ok ([], none), decode := .error "boom" }

/-- Witness scenario: the result of the failing-decode iteration. -/
def wresErr : StepResult :=
  match decodeStep wcfg wenvErr wentries wbatch 1 wdb 0 with
  | .ok r => r
  | .error _ => default

/-- Witness scenario: a terminal generation for request 0, carrying prefill
tokens and a `generated_text`. -/
def wEndGen : Generation :=
  { request_id := 0,
    prefill_tokens := some { ids := [1], logprobs := [0], texts := ["a"] },
    token_id := 5, token_text := "e", token_logprob := 0,
    generated_text := some { text := "done", generated_tokens := 2,
                             finish_reason := "length", seed := none } }

/-- The dispatcher invariant tying the active entries view, the queue and
the trace of sent messages together: ids are distinct and partitioned,
queued and not-yet-assigned ids have silent streams, in-flight streams
match `Prefill? Token*`, and every other stream matches
`Prefill? Token* (End | error)?`. -/
structure GoodState (view : Entries) (db : Db) (trace : Trace) : Prop where
  viewNodup : (view.map Prod.fst).Nodup
  dbNodup : (db.entries.map Prod.fst).Nodup
  disj : ∀ r ∈ view.map Prod.fst, r ∉ db.entries.map Prod.fst
  viewLt : ∀ r ∈ view.map Prod.fst, r < db.counter
  dbLt : ∀ r ∈ db.entries.map Prod.fst, r < db.counter
  dbFresh : ∀ r ∈ db.entries.map Prod.fst, streamOf r trace = []
  highFresh : ∀ r, db.counter ≤ r → streamOf r trace = []
  viewOpen : ∀ r ∈ view.map Prod.fst, openShape (streamOf r trace) = true
  othersOK : ∀ r, r ∉ view.map Prod.fst →
    sessionShape (streamOf r trace) = true

/-- Witness run: one terminal prefill generation for request 0. -/
def c6gen : Generation :=
  { request_id := 0,
    prefill_tokens := some { ids := [1], logprobs := [0], texts := ["a"] },
    token_id := 7, token_text := "z", token_logprob := 0,
    generated_text := some { text := "z", generated_tokens := 1,
                             finish_reason := "length", seed := none } }

/-- Witness run: one append, then one drain whose prefill finishes the
request in one step. -/
def c6events : List RunEvent :=
  [.append { input_length := 1, time := 0, batch_time := none,
             closed := false },
   .drain [{ prefill := .ok ([c6gen], none), steps := [] }]]

/-- Witness run: the resulting queue, clock and trace. -/
def c6out : Db × Nat × Trace :=
  match run wcfg c6events { entries := [], counter := 0, batchCounter := 0 }
      0 [] with
  | .ok out => out
  | .error _ => (default, 0, [])

/-! ## Theorems -/

/-- `removeEntry` removes only the given key: lookups of other keys are
unchanged. -/
theorem lookupEntry_removeEntry_ne (entries : Entries) (x y : Nat)
    (h : y ≠ x) :
    lookupEntry (removeEntry entries x) y = lookupEntry entries y := by
  induction entries with
  | nil => rfl
  | cons p rest ih =>
    obtain ⟨i, e⟩ := p
    by_cases hp : i = x
    · subst hp
      simp only [removeEntry, if_true, lookupEntry]
      rw [if_neg (fun hy => h hy.symm)]
    · simp only [removeEntry, hp, if_false, lookupEntry]
      by_cases hy : i = y
      · simp [hy]
      · simp [hy, ih]

/-- A successful `sendOne` leaves the view unchanged or removes exactly the
generation's entry. -/
theorem sendOne_ok_entries (entries : Entries) (g : Generation)
    (es : Entries) (tr : Trace) (h : sendOne entries g = .ok (es, tr)) :
    es = entries ∨ es = removeEntry entries g.request_id := by
  unfold sendOne at h
  cases hl : lookupEntry entries g.request_id with
  | none => rw [hl] at h; exact (Except.noConfusion h)
  | some entry =>
    rw [hl] at h
    dsimp only at h
    cases hgt : g.generated_text with
    | some gt =>
      rw [hgt] at h
      cases hbt : entry.batch_time with
      | none => rw [hbt] at h; exact (Except.noConfusion h)
      | some bt =>
        rw [hbt] at h
        injection h with h
        exact Or.inr (congrArg Prod.fst h).symm
    | none =>
      rw [hgt] at h
      injection h with h
      exact Or.inl (congrArg Prod.fst h).symm

/-- `sendOne` raises the missing-id panic only when the id is missing. -/
theorem sendOne_not_idNotFound (entries : Entries) (g : Generation)
    (h : (lookupEntry entries g.request_id).isSome) :
    sendOne entries g ≠ .error .idNotFound := by
  unfold sendOne
  cases hl : lookupEntry entries g.request_id with
  | none => rw [hl] at h; exact absurd h (by simp)
  | some entry =>
    dsimp only
    cases hgt : g.generated_text with
    | some gt =>
      cases hbt : entry.batch_time with
      | none => intro hc; injection hc with hc; exact PanicKind.noConfusion hc
      | some bt => intro hc; exact Except.noConfusion hc
    | none => intro hc; exact Except.noConfusion hc

/-- The messages `send_error` delivers to request `r`: one `GenerationError`
per binding of `r` in the view. -/
theorem streamOf_sendError (r : Nat) (err : String) (entries : Entries) :
    streamOf r (send_error err entries).2 =
      List.replicate ((entries.map Prod.fst).count r)
        (Except.error (InferError.GenerationError err)) := by
  induction entries with
  | nil => rfl
  | cons p rest ih =>
    by_cases hp : p.1 = r
    · have hb : (p.1 == r) = true := by simp [hp]
      have hb2 : (r == p.1) = true := by simp [hp]
      simp only [send_error, streamOf, List.map_cons, List.filter_cons, hb,
        if_true, List.count_cons, hb2, List.map_cons]
      simp only [send_error, streamOf] at ih
      simp [ih, List.replicate_succ, List.replicate_add]
    · have hb : (p.1 == r) = false := by simp [hp]
      have hb2 : (r == p.1) = false := by
        simp only [beq_eq_false_iff_ne, ne_eq]
        exact fun h => hp h.symm
      simp only [send_error, streamOf, List.map_cons, List.filter_cons, hb,
        List.count_cons, hb2]
      simp only [send_error, streamOf] at ih
      simp [ih]

/-- Full case analysis of a successful `tryExtend`. -/
theorem tryExtend_inv (cfg : Config) (p : ClientResult) (entries : Entries)
    (batch : Batch) (wt : Nat) (db : Db) (clock : Nat) (ext : ExtOutcome)
    (h : tryExtend cfg p entries batch wt db clock = .ok ext) :
    (¬ batch.size ≤ cfg.maxBatchSize / 2 ∧
      ext = { entries := entries, batches := [batch], waiting_tokens := wt,
              db := db, clock := clock + 1, sent := [], dbCall := none,
              dbReturned := false, merged := false }) ∨
    (batch.size ≤ cfg.maxBatchSize / 2 ∧
      ∃ ms, ms = (if cfg.maxWaitingTokens ≤ wt then none
                  else some (cfg.maxBatchSize / 2)) ∧
      ((db.next_batch ms (cfg.maxBatchSize - batch.size) clock = none ∧
        ext = { entries := entries, batches := [batch], waiting_tokens := wt,
                db := db, clock := clock + 1, sent := [],
                dbCall := some (ms, cfg.maxBatchSize - batch.size),
                dbReturned := false, merged := false }) ∨
       (∃ ne nb db1 ne1 tr1,
          db.next_batch ms (cfg.maxBatchSize - batch.size) clock =
            some (ne, nb, db1) ∧
          wrap_future p ne = .ok (none, ne1, tr1) ∧
          ext = { entries := entries, batches := [batch], waiting_tokens := 1,
                  db := db1, clock := clock + 1, sent := tr1,
                  dbCall := some (ms, cfg.maxBatchSize - batch.size),
                  dbReturned := true, merged := false }) ∨
       (∃ ne nb db1 ncb ne1 tr1,
          db.next_batch ms (cfg.maxBatchSize - batch.size) clock =
            some (ne, nb, db1) ∧
          wrap_future p ne = .ok (some ncb, ne1, tr1) ∧
          ext = { entries := entries ++ ne1, batches := [batch, ncb],
                  waiting_tokens := 1, db := db1, clock := clock + 1,
                  sent := tr1,
                  dbCall := some (ms, cfg.maxBatchSize - batch.size),
                  dbReturned := true, merged := true }))) := by
  by_cases hb : batch.size ≤ cfg.maxBatchSize / 2
  · right
    refine ⟨hb, (if cfg.maxWaitingTokens ≤ wt then none
                 else some (cfg.maxBatchSize / 2)), rfl, ?_⟩
    simp only [tryExtend, hb, if_true, ge_iff_le] at h
    cases hnb : db.next_batch
        (if cfg.maxWaitingTokens ≤ wt then none else some (cfg.maxBatchSize / 2))
        (cfg.maxBatchSize - batch.size) clock with
    | none =>
      rw [hnb] at h
      injection h with h
      exact Or.inl ⟨rfl, h.symm⟩
    | some v =>
      obtain ⟨ne, nb, db1⟩ := v
      rw [hnb] at h
      dsimp only at h
      cases hwf : wrap_future p ne with
      | error e =>
        rw [hwf] at h
        simp only [bind, Except.bind] at h
        exact (Except.noConfusion h)
      | ok v2 =>
        obtain ⟨nc, ne1, tr1⟩ := v2
        rw [hwf] at h
        simp only [bind, Except.bind] at h
        cases nc with
        | some ncb =>
          injection h with h
          exact Or.inr (Or.inr ⟨ne, nb, db1, ncb, ne1, tr1, rfl, hwf, h.symm⟩)
        | none =>
          injection h with h
          exact Or.inr (Or.inl ⟨ne, nb, db1, ne1, tr1, rfl, hwf, h.symm⟩)
  · left
    simp only [tryExtend, hb, if_false] at h
    injection h with h
    exact ⟨hb, h.symm⟩

/-- Decomposition of a successful `decodeStep` into its extension attempt
and its decode call. -/
theorem decodeStep_inv (cfg : Config) (env : StepEnv) (entries : Entries)
    (batch : Batch) (wt : Nat) (db : Db) (clock : Nat) (r : StepResult)
    (h : decodeStep cfg env entries batch wt db clock = .ok r) :
    ∃ ext cached1 entries2 tr2,
      tryExtend cfg env.extPrefill entries batch wt db clock = .ok ext ∧
      wrap_future env.decode ext.entries = .ok (cached1, entries2, tr2) ∧
      r = { entries := entries2, cached := cached1,
            waiting_tokens := ext.waiting_tokens + 1, db := ext.db,
            clock := ext.clock, sent := ext.sent ++ tr2,
            log := { waitingAtStart := wt, dbCall := ext.dbCall,
                     dbReturned := ext.dbReturned, merged := ext.merged,
                     decodeBatches := ext.batches,
                     decodeEntries := ext.entries } } := by
  unfold decodeStep at h
  cases hx : tryExtend cfg env.extPrefill entries batch wt db clock with
  | error e =>
    rw [hx] at h
    simp only [bind, Except.bind] at h
    exact (Except.noConfusion h)
  | ok ext =>
    rw [hx] at h
    simp only [bind, Except.bind] at h
    cases hwf : wrap_future env.decode ext.entries with
    | error e =>
      rw [hwf] at h
      simp only [bind, Except.bind] at h
      exact (Except.noConfusion h)
    | ok v =>
      obtain ⟨cached1, entries2, tr2⟩ := v
      rw [hwf] at h
      simp only [bind, Except.bind] at h
      injection h with h
      exact ⟨ext, cached1, entries2, tr2, rfl, hwf, h.symm⟩

/-- A successful `wrap_future` passes the backend's cached batch through. -/
theorem wrap_future_cached (res : ClientResult) (V V' : Entries)
    (nb : Option Batch) (tr : Trace)
    (h : wrap_future res V = .ok (nb, V', tr)) : nb = clientCached res := by
  cases res with
  | error e =>
    simp only [wrap_future, send_error] at h
    injection h with h
    cases h
    rfl
  | ok v =>
    obtain ⟨gens, nb0⟩ := v
    simp only [wrap_future] at h
    cases hsg : send_generations gens V with
    | error e =>
      rw [hsg] at h
      simp only [bind, Except.bind] at h
      exact (Except.noConfusion h)
    | ok v2 =>
      obtain ⟨V2, tr2⟩ := v2
      rw [hsg] at h
      simp only [bind, Except.bind] at h
      injection h with h
      cases h
      rfl

/-- An accepted `next_batch` with a `min_size` returns at least `min_size`
entries. -/
theorem next_batch_min_size (db' : Db) (m k now : Nat) (view : Entries)
    (b : Batch) (db2 : Db)
    (h : db'.next_batch (some m) k now = some (view, b, db2)) :
    m ≤ view.length := by
  unfold Db.next_batch at h
  dsimp only at h
  split at h
  · exact (Option.noConfusion h)
  · rename_i hcond
    simp only [Bool.or_eq_true, decide_eq_true_eq, not_or] at hcond
    injection h with h
    cases h
    simp only [List.length_map]
    omega

/-- Claim C1: in every iteration of the decode loop, the queue is consulted
for an in-flight extension exactly when the cached batch size is at most
`max_batch_size / 2`; while `waiting_tokens < max_waiting_tokens` the
consultation carries `min_size = max_batch_size / 2` — and an accepted
`next_batch` with a `min_size` returns at least that many entries — and once
`waiting_tokens >= max_waiting_tokens` it carries `min_size = none`. -/
theorem extension_policy (cfg : Config) (env : StepEnv) (entries : Entries)
    (batch : Batch) (wt : Nat) (db : Db) (clock : Nat) (r : StepResult)
    (h : decodeStep cfg env entries batch wt db clock = .ok r) :
    (r.log.dbCall.isSome ↔ batch.size ≤ cfg.maxBatchSize / 2) ∧
    (∀ ms sz, r.log.dbCall = some (ms, sz) →
      sz = cfg.maxBatchSize - batch.size ∧
      (wt < cfg.maxWaitingTokens → ms = some (cfg.maxBatchSize / 2)) ∧
      (cfg.maxWaitingTokens ≤ wt → ms = none)) ∧
    (∀ (db' : Db) (m k now : Nat) (view : Entries) (b : Batch) (db2 : Db),
      db'.next_batch (some m) k now = some (view, b, db2) →
      m ≤ view.length) := by
  obtain ⟨ext, cached1, entries2, tr2, hx, hwf, hr⟩ :=
    decodeStep_inv cfg env entries batch wt db clock r h
  have hlog : r.log.dbCall = ext.dbCall := by rw [hr]
  refine ⟨?_, ?_, fun db' m k now view b db2 hh =>
    next_batch_min_size db' m k now view b db2 hh⟩
  · rw [hlog]
    rcases tryExtend_inv cfg env.extPrefill entries batch wt db clock ext hx with
      ⟨hb, he⟩ | ⟨hb, ms, hms, hcase⟩
    · subst he
      simp [hb]
    · rcases hcase with ⟨-, he⟩ | ⟨ne, nb, db1, ne1, tr1, -, -, he⟩ |
        ⟨ne, nb, db1, ncb, ne1, tr1, -, -, he⟩ <;> subst he <;> simp [hb]
  · intro ms0 sz hcall
    rw [hlog] at hcall
    rcases tryExtend_inv cfg env.extPrefill entries batch wt db clock ext hx with
      ⟨hb, he⟩ | ⟨hb, ms, hms, hcase⟩
    · subst he
      exact absurd hcall (by simp)
    · have hcall' : ext.dbCall = some (ms, cfg.maxBatchSize - batch.size) := by
        rcases hcase with ⟨-, he⟩ | ⟨ne, nb, db1, ne1, tr1, -, -, he⟩ |
          ⟨ne, nb, db1, ncb, ne1, tr1, -, -, he⟩ <;> subst he <;> rfl
      rw [hcall'] at hcall
      injection hcall with hcall
      have h1 : ms0 = ms := (congrArg Prod.fst hcall).symm
      have h2 : sz = cfg.maxBatchSize - batch.size :=
        (congrArg Prod.snd hcall).symm
      subst h1
      refine ⟨h2, ?_, ?_⟩
      · intro hlt
        rw [hms]
        simp [Nat.not_le.mpr hlt]
      · intro hge
        rw [hms]
        simp [hge]

/-- Claim C1, witness: the policy evaluated on the witness scenario. -/
theorem extension_policy_witness :
    (wres.log.dbCall.isSome ↔ wbatch.size ≤ wcfg.maxBatchSize / 2) ∧
    (∀ ms sz, wres.log.dbCall = some (ms, sz) →
      sz = wcfg.maxBatchSize - wbatch.size ∧
      (1 < wcfg.maxWaitingTokens → ms = some (wcfg.maxBatchSize / 2)) ∧
      (wcfg.maxWaitingTokens ≤ 1 → ms = none)) ∧
    (∀ (db' : Db) (m k now : Nat) (view : Entries) (b : Batch) (db2 : Db),
      db'.next_batch (some m) k now = some (view, b, db2) →
      m ≤ view.length) :=
  extension_policy wcfg wenv wentries wbatch 1 wdb 0 wres (by rfl)

/-- Claim C2, counterexample: in scenario 5 (`max_batch_size = 8`,
`max_waiting_tokens = 3`, running batch of size 2, one queued newcomer) the
merge happens on the third decode step, with the first two not extending —
not, as claimed, on the fourth after three non-extending steps. -/
theorem scenario5_third_step_merges :
    c2logs.map StepLog.merged = [false, false, true, false] := by decide

/-- Claim C2, amended: with `max_batch_size = 8` and `max_waiting_tokens =
3`, a running batch of size 2 and one queued request, the first two decode
steps consult the queue with `min_size = 4` and do not extend; on the third
step `waiting_tokens = 3 >= 3` holds, `min_size` becomes none, and the
single new request is merged into the in-flight batch before that step's
decode. -/
theorem scenario5_deferred_then_forced :
    c2logs.map (fun l => (l.waitingAtStart, l.dbCall, l.dbReturned, l.merged))
      = [(1, some (some 4, 6), false, false),
         (2, some (some 4, 6), false, false),
         (3, some (none, 6), true, true),
         (2, some (some 4, 5), false, false)] ∧
    c2logs.map (fun l => l.decodeEntries.map Prod.fst) =
      [[0, 1], [0, 1], [0, 1, 2], [0, 1, 2]] :=
  ⟨by decide, by decide⟩

/-- Claim C4: an in-flight extension is best-effort — whenever the queue
returned newcomers but their prefill failed or yielded no cached batch, the
primary entries view is passed to the decode unchanged and the decode is
issued on exactly the original cached descriptor. -/
theorem extension_best_effort (cfg : Config) (env : StepEnv)
    (entries : Entries) (batch : Batch) (wt : Nat) (db : Db) (clock : Nat)
    (r : StepResult)
    (h : decodeStep cfg env entries batch wt db clock = .ok r)
    (hret : r.log.dbReturned = true)
    (hnone : clientCached env.extPrefill = none) :
    r.log.decodeBatches = [batch] ∧ r.log.decodeEntries = entries := by
  obtain ⟨ext, cached1, entries2, tr2, hx, hwf, hr⟩ :=
    decodeStep_inv cfg env entries batch wt db clock r h
  have hret' : ext.dbReturned = true := by rw [hr] at hret; exact hret
  have hbat : r.log.decodeBatches = ext.batches := by rw [hr]
  have hent : r.log.decodeEntries = ext.entries := by rw [hr]
  rcases tryExtend_inv cfg env.extPrefill entries batch wt db clock ext hx with
    ⟨hb, he⟩ | ⟨hb, ms, hms, hcase⟩
  · subst he; exact absurd hret' (by simp)
  · rcases hcase with ⟨-, he⟩ | ⟨ne, nb, db1, ne1, tr1, -, hwf2, he⟩ |
      ⟨ne, nb, db1, ncb, ne1, tr1, -, hwf2, he⟩
    · subst he; exact absurd hret' (by simp)
    · subst he; exact ⟨hbat, hent⟩
    · exfalso
      have := wrap_future_cached env.extPrefill ne ne1 (some ncb) tr1 hwf2
      rw [hnone] at this
      exact Option.noConfusion this

/-- Claim C4, witness: the newcomers' prefill fails, the decode still runs
on the original descriptor and view. -/
theorem extension_best_effort_witness :
    wres.log.decodeBatches = [wbatch] ∧ wres.log.decodeEntries = wentries :=
  extension_best_effort wcfg wenv wentries wbatch 1 wdb 0 wres (by rfl)
    (by decide) (by rfl)

/-- Claim C10: whenever the queue returned newcomers during an extension
attempt, `waiting_tokens` was reset to 1 — so after the iteration's final
increment it is 2 — even when the newcomers' prefill failed with a backend
error, in which case nothing is merged. -/
theorem waiting_tokens_reset_on_extension (cfg : Config) (env : StepEnv)
    (entries : Entries) (batch : Batch) (wt : Nat) (db : Db) (clock : Nat)
    (r : StepResult)
    (h : decodeStep cfg env entries batch wt db clock = .ok r)
    (hret : r.log.dbReturned = true) :
    r.waiting_tokens = 2 ∧
    (∀ msg, env.extPrefill = .error msg → r.log.merged = false) := by
  obtain ⟨ext, cached1, entries2, tr2, hx, hwf, hr⟩ :=
    decodeStep_inv cfg env entries batch wt db clock r h
  have hret' : ext.dbReturned = true := by rw [hr] at hret; exact hret
  have hwt : r.waiting_tokens = ext.waiting_tokens + 1 := by rw [hr]
  have hmg : r.log.merged = ext.merged := by rw [hr]
  rcases tryExtend_inv cfg env.extPrefill entries batch wt db clock ext hx with
    ⟨hb, he⟩ | ⟨hb, ms, hms, hcase⟩
  · subst he; exact absurd hret' (by simp)
  · rcases hcase with ⟨-, he⟩ | ⟨ne, nb, db1, ne1, tr1, -, hwf2, he⟩ |
      ⟨ne, nb, db1, ncb, ne1, tr1, -, hwf2, he⟩
    · subst he; exact absurd hret' (by simp)
    · subst he
      exact ⟨by rw [hwt], fun msg hm => by rw [hmg]⟩
    · subst he
      refine ⟨by rw [hwt], fun msg hm => ?_⟩
      exfalso
      rw [hm] at hwf2
      simp only [wrap_future, send_error] at hwf2
      injection hwf2 with hwf2
      have : (none : Option Batch) = some ncb := congrArg Prod.fst hwf2
      exact Option.noConfusion this

/-- Claim C10, witness: the queue returns two newcomers, their prefill
fails, and the iteration still ends with `waiting_tokens = 1 + 1`. -/
theorem waiting_tokens_reset_on_extension_witness :
    wres.waiting_tokens = 2 ∧
    (∀ msg, wenv.extPrefill = .error msg → wres.log.merged = false) :=
  waiting_tokens_reset_on_extension wcfg wenv wentries wbatch 1 wdb 0 wres
    (by rfl) (by decide)

/-- Claim C3: when a backend prefill or decode call fails, `wrap_future`
does not crash: it clears the entries view, sends one
`GenerationError(message)` to every entry of the view (and to nobody else),
and yields no cached batch — so the failed call is not retried, the decode
loop exits, and the dispatcher resumes with the next batch or awaits the
next notification. -/
theorem backend_error_abort :
    (∀ (err : String) (entries : Entries),
      wrap_future (.error err) entries =
        .ok (none, [], (send_error err entries).2)) ∧
    (∀ (err : String) (entries : Entries) (r : Nat),
      (entries.map Prod.fst).Nodup → r ∈ entries.map Prod.fst →
      streamOf r (send_error err entries).2 =
        [.error (.GenerationError err)]) ∧
    (∀ (err : String) (entries : Entries) (r : Nat),
      r ∉ entries.map Prod.fst →
      streamOf r (send_error err entries).2 = []) ∧
    (∀ cfg envs entries wt db clock trace,
      decodeLoop cfg envs entries none wt db clock trace =
        .ok (db, clock, trace)) ∧
    (∀ cfg env entries batch wt db clock r msg, env.decode = .error msg →
      decodeStep cfg env entries batch wt db clock = .ok r →
      r.cached = none ∧ r.entries = []) := by
  refine ⟨fun err entries => rfl, ?_, ?_,
    fun cfg envs entries wt db clock trace => by simp [decodeLoop], ?_⟩
  · intro err entries r hnd hmem
    rw [streamOf_sendError, List.count_eq_one_of_mem hnd hmem]
    rfl
  · intro err entries r hmem
    rw [streamOf_sendError, List.count_eq_zero_of_not_mem hmem]
    rfl
  · intro cfg env entries batch wt db clock r msg hmsg h
    obtain ⟨ext, cached1, entries2, tr2, hx, hwf, hr⟩ :=
      decodeStep_inv cfg env entries batch wt db clock r h
    rw [hmsg] at hwf
    simp only [wrap_future, send_error] at hwf
    injection hwf with hwf
    cases hwf
    subst hr
    exact ⟨rfl, rfl⟩

/-- Claim C3, witness: a failing call on the witness view, and a failing
decode step. -/
theorem backend_error_abort_witness :
    wrap_future (.error "boom") wentries =
      .ok (none, [], (send_error "boom" wentries).2) ∧
    streamOf 0 (send_error "boom" wentries).2 =
      [.error (.GenerationError "boom")] ∧
    streamOf 7 (send_error "boom" wentries).2 = [] ∧
    decodeLoop wcfg [] wentries none 1 wdb 0 [] = .ok (wdb, 0, []) ∧
    wresErr.cached = none ∧ wresErr.entries = [] :=
  ⟨backend_error_abort.1 "boom" wentries,
   backend_error_abort.2.1 "boom" wentries 0 (by decide) (by decide),
   backend_error_abort.2.2.1 "boom" wentries 7 (by decide),
   backend_error_abort.2.2.2.1 wcfg [] wentries 1 wdb 0 [],
   (backend_error_abort.2.2.2.2 wcfg wenvErr wentries wbatch 1 wdb 0 wresErr
      "boom" rfl (by rfl)).1,
   (backend_error_abort.2.2.2.2 wcfg wenvErr wentries wbatch 1 wdb 0 wresErr
      "boom" rfl (by rfl)).2⟩

/-- Claim C5: for every generation fanned out to an entries view, a
`Prefill` is sent exactly when the generation carries prefill tokens (and it
precedes the token message); a terminal generation removes its entry and
sends `End` with the final token, the `generated_text`, the entry's
`batch_time` (batch_started_at) and `time` (queued_at); a non-terminal
generation keeps the entry and sends `Token`. -/
theorem fanout_per_generation :
    (∀ (entries : Entries) (g : Generation) (entry : Entry)
        (gt : GeneratedText) (bt : Nat),
      lookupEntry entries g.request_id = some entry →
      g.generated_text = some gt → entry.batch_time = some bt →
      sendOne entries g = .ok (removeEntry entries g.request_id,
        prefillTrace g ++ [(g.request_id,
          .ok (.End { id := g.token_id, text := g.token_text,
                      logprob := g.token_logprob } gt bt entry.time))])) ∧
    (∀ (entries : Entries) (g : Generation) (entry : Entry),
      lookupEntry entries g.request_id = some entry →
      g.generated_text = none →
      sendOne entries g = .ok (entries,
        prefillTrace g ++ [(g.request_id,
          .ok (.Token { id := g.token_id, text := g.token_text,
                        logprob := g.token_logprob }))])) ∧
    (∀ g : Generation, (prefillTrace g = [] ↔ g.prefill_tokens = none) ∧
      (∀ pt, g.prefill_tokens = some pt →
        prefillTrace g = [(g.request_id, .ok (.Prefill pt))])) := by
  refine ⟨?_, ?_, ?_⟩
  · intro entries g entry gt bt hl hgt hbt
    simp [sendOne, hl, hgt, hbt, prefillTrace]
  · intro entries g entry hl hgt
    simp [sendOne, hl, hgt, prefillTrace]
  · intro g
    constructor
    · cases hpt : g.prefill_tokens <;> simp [prefillTrace, hpt]
    · intro pt hpt
      simp [prefillTrace, hpt]

/-- Claim C5, witness: a terminal generation with prefill tokens, and a
non-terminal one. -/
theorem fanout_per_generation_witness :
    sendOne wentries wEndGen = .ok (removeEntry wentries wEndGen.request_id,
      prefillTrace wEndGen ++ [(wEndGen.request_id,
        .ok (.End { id := wEndGen.token_id, text := wEndGen.token_text,
                    logprob := wEndGen.token_logprob }
          { text := "done", generated_tokens := 2, finish_reason := "length",
            seed := none } 0 0))]) ∧
    sendOne wentries (c2tok 0) = .ok (wentries,
      prefillTrace (c2tok 0) ++ [((c2tok 0).request_id,
        .ok (.Token { id := (c2tok 0).token_id, text := (c2tok 0).token_text,
                      logprob := (c2tok 0).token_logprob }))]) :=
  ⟨fanout_per_generation.1 wentries wEndGen
     { input_length := 1, time := 0, batch_time := some 0, closed := false }
     { text := "done", generated_tokens := 2, finish_reason := "length",
       seed := none } 0 (by rfl) (by rfl) (by rfl),
   fanout_per_generation.2.1 wentries (c2tok 0)
     { input_length := 1, time := 0, batch_time := some 0, closed := false }
     (by rfl) (by rfl)⟩

/-- Claim C9: a generation whose request id is absent from the entries view
makes `send_generations` abort loudly with the missing-id panic (no
generation after it is processed, nothing is returned); when every
generation's id is present — ids being distinct, as one per still-alive
request — that abort is unreachable. -/
theorem fanout_missing_id :
    (∀ (entries : Entries) (g : Generation) (rest : List Generation),
      lookupEntry entries g.request_id = none →
      send_generations (g :: rest) entries = .error .idNotFound) ∧
    (∀ (gens : List Generation) (entries : Entries),
      (∀ g ∈ gens, (lookupEntry entries g.request_id).isSome) →
      gens.Pairwise (fun a b => a.request_id ≠ b.request_id) →
      send_generations gens entries ≠ .error .idNotFound) := by
  constructor
  · intro entries g rest hl
    simp only [send_generations, sendOne, hl, bind, Except.bind]
  · intro gens
    induction gens with
    | nil =>
      intro entries hmem hpw hc
      exact Except.noConfusion hc
    | cons g rest ih =>
      intro entries hmem hpw hc
      have hg : (lookupEntry entries g.request_id).isSome :=
        hmem g (List.mem_cons_self g rest)
      simp only [send_generations] at hc
      cases hso : sendOne entries g with
      | error k =>
        rw [hso] at hc
        simp only [bind, Except.bind] at hc
        injection hc with hc
        subst hc
        exact sendOne_not_idNotFound entries g hg hso
      | ok v =>
        obtain ⟨es, tr⟩ := v
        rw [hso] at hc
        simp only [bind, Except.bind] at hc
        cases hsg : send_generations rest es with
        | error k =>
          rw [hsg] at hc
          simp only [bind, Except.bind] at hc
          injection hc with hc
          subst hc
          have hmem' : ∀ g' ∈ rest, (lookupEntry es g'.request_id).isSome := by
            intro g' hg'
            rcases sendOne_ok_entries entries g es tr hso with he | he
            · rw [he]; exact hmem g' (List.mem_cons_of_mem g hg')
            · rw [he, lookupEntry_removeEntry_ne entries g.request_id
                g'.request_id ((List.pairwise_cons.mp hpw).1 g' hg').symm]
              exact hmem g' (List.mem_cons_of_mem g hg')
          exact ih es hmem' (List.pairwise_cons.mp hpw).2 hsg
        | ok v2 =>
          rw [hsg] at hc
          obtain ⟨es2, tr2⟩ := v2
          simp only [bind, Except.bind] at hc
          exact Except.noConfusion hc

/-- Claim C9, witness: a fan-out to a missing id aborts; a fan-out whose id
is present cannot raise the missing-id abort. -/
theorem fanout_missing_id_witness :
    send_generations [c2tok 9] wentries = .error .idNotFound ∧
    send_generations [c2tok 0] wentries ≠ .error .idNotFound :=
  ⟨fanout_missing_id.1 wentries (c2tok 9) [] (by rfl),
   fanout_missing_id.2 [c2tok 0] wentries (by decide) (by decide)⟩

/-- An error-free stream makes the consuming loop of `Infer::generate`
finish. -/
theorem generateLoop_ok_of_no_err (s : List Msg) :
    ∀ pf tk gt st q, (∀ e, .error e ∉ s) →
    ∃ out, generateLoop s pf tk gt st q = .ok out := by
  induction s with
  | nil => intro pf tk gt st q h; exact ⟨_, rfl⟩
  | cons m rest ih =>
    intro pf tk gt st q h
    have hrest : ∀ e, Except.error e ∉ rest := fun e he =>
      h e (List.mem_cons_of_mem m he)
    cases m with
    | error e => exact absurd (List.mem_cons_self _ _) (h e)
    | ok v =>
      cases v with
      | Prefill pt => exact ih _ _ _ _ _ hrest
      | Token t => exact ih _ _ _ _ _ hrest
      | End t g s' q' => exact ih _ _ _ _ _ hrest

/-- Without an `End` in the stream, the terminal accumulators of
`Infer::generate` keep their initial values. -/
theorem generateLoop_no_end (s : List Msg) :
    ∀ pf tk gt st q out, generateLoop s pf tk gt st q = .ok out →
    (∀ t g s' q', .ok (.End t g s' q') ∉ s) →
    out.2.2 = (gt, st, q) := by
  induction s with
  | nil =>
    intro pf tk gt st q out h hne
    injection h with h
    rw [← h]
  | cons m rest ih =>
    intro pf tk gt st q out h hne
    have hne' : ∀ t g s' q', Except.ok (.End t g s' q') ∉ rest :=
      fun t g s' q' hm => hne t g s' q' (List.mem_cons_of_mem m hm)
    cases m with
    | error e => exact (Except.noConfusion h)
    | ok v =>
      cases v with
      | Prefill pt => exact ih _ _ _ _ _ _ h hne'
      | Token t => exact ih _ _ _ _ _ _ h hne'
      | End t g s' q' =>
        exact absurd (List.mem_cons_self _ _) (hne t g s' q')

/-- Once the terminal accumulators are set, an error-free remainder keeps
them set. -/
theorem generateLoop_some_stays (s : List Msg) :
    ∀ pf tk g0 s0 q0 out, (∀ e, .error e ∉ s) →
    generateLoop s pf tk (some g0) (some s0) (some q0) = .ok out →
    ∃ g1 s1 q1, out.2.2 = (some g1, some s1, some q1) := by
  induction s with
  | nil =>
    intro pf tk g0 s0 q0 out h hl
    injection hl with hl
    exact ⟨g0, s0, q0, by rw [← hl]⟩
  | cons m rest ih =>
    intro pf tk g0 s0 q0 out h hl
    have hrest : ∀ e, Except.error e ∉ rest := fun e he =>
      h e (List.mem_cons_of_mem m he)
    cases m with
    | error e => exact absurd (List.mem_cons_self _ _) (h e)
    | ok v =>
      cases v with
      | Prefill pt => exact ih _ _ _ _ _ _ hrest hl
      | Token t => exact ih _ _ _ _ _ _ hrest hl
      | End t g s' q' => exact ih _ _ _ _ _ _ hrest hl

/-- An `End` in an error-free stream sets the terminal accumulators. -/
theorem generateLoop_end_some (s : List Msg) :
    ∀ pf tk gt st q out, (∀ e, .error e ∉ s) →
    (∃ t g s' q', Except.ok (.End t g s' q') ∈ s) →
    generateLoop s pf tk gt st q = .ok out →
    ∃ g1 s1 q1, out.2.2 = (some g1, some s1, some q1) := by
  induction s with
  | nil =>
    intro pf tk gt st q out h hend hl
    obtain ⟨t, g, s', q', hm⟩ := hend
    exact absurd hm (List.not_mem_nil _)
  | cons m rest ih =>
    intro pf tk gt st q out h hend hl
    have hrest : ∀ e, Except.error e ∉ rest := fun e he =>
      h e (List.mem_cons_of_mem m he)
    cases m with
    | error e => exact absurd (List.mem_cons_self _ _) (h e)
    | ok v =>
      cases v with
      | Prefill pt =>
        obtain ⟨t, g, s', q', hm⟩ := hend
        rcases List.mem_cons.mp hm with hm | hm
        · exact absurd hm.symm (by simp)
        · exact ih _ _ _ _ _ _ hrest ⟨t, g, s', q', hm⟩ hl
      | Token t0 =>
        obtain ⟨t, g, s', q', hm⟩ := hend
        rcases List.mem_cons.mp hm with hm | hm
        · exact absurd hm.symm (by simp)
        · exact ih _ _ _ _ _ _ hrest ⟨t, g, s', q', hm⟩ hl
      | End t g s' q' => exact generateLoop_some_stays rest _ _ _ _ _ _ hrest hl

/-- An error item makes the consuming loop return an error of the stream. -/
theorem generateLoop_first_err (s : List Msg) :
    ∀ pf tk gt st q, (∃ e, Except.error e ∈ s) →
    ∃ e, generateLoop s pf tk gt st q = .error e ∧ Except.error e ∈ s := by
  induction s with
  | nil =>
    intro pf tk gt st q h
    obtain ⟨e, hm⟩ := h
    exact absurd hm (List.not_mem_nil _)
  | cons m rest ih =>
    intro pf tk gt st q h
    cases m with
    | error e => exact ⟨e, rfl, List.mem_cons_self _ _⟩
    | ok v =>
      have h' : ∃ e, Except.error e ∈ rest := by
        obtain ⟨e, hm⟩ := h
        rcases List.mem_cons.mp hm with hm | hm
        · exact absurd hm.symm (by simp)
        · exact ⟨e, hm⟩
      cases v with
      | Prefill pt =>
        obtain ⟨e, he, hm⟩ := ih _ _ _ _ _ h'
        exact ⟨e, he, List.mem_cons_of_mem _ hm⟩
      | Token t =>
        obtain ⟨e, he, hm⟩ := ih _ _ _ _ _ h'
        exact ⟨e, he, List.mem_cons_of_mem _ hm⟩
      | End t g s' q' =>
        obtain ⟨e, he, hm⟩ := ih _ _ _ _ _ h'
        exact ⟨e, he, List.mem_cons_of_mem _ hm⟩

/-- A run of `Token` items only accumulates tokens. -/
theorem generateLoop_tokens (toks : List Token) :
    ∀ (rest : List Msg) pf tk gt st q,
    generateLoop (toks.map (fun t => .ok (.Token t)) ++ rest) pf tk gt st q =
      generateLoop rest pf (tk ++ toks) gt st q := by
  induction toks with
  | nil => intro rest pf tk gt st q; simp
  | cons t ts ih =>
    intro rest pf tk gt st q
    simp only [List.map_cons, List.cons_append, generateLoop, List.append_eq,
      ih]
    simp [List.append_assoc]

/-- Claim C7: `Infer::generate` returns `IncompleteGeneration` exactly when
its stream delivered neither an `End` nor an error (error items of such
streams being `GenerationError`s); on a `Prefill? Token* End` stream it
returns the final response with the `End`'s token appended to the token
list, the accumulated prefill tokens, the `generated_text`, and the
`queued`/`start` timing marks carried by `End`. -/
theorem generate_end_or_incomplete :
    (∀ (s : List Msg),
      (∀ e, Except.error e ∈ s → ∃ m, e = InferError.GenerationError m) →
      (generate s = .error .IncompleteGeneration ↔
        ((∀ t gt st q, Except.ok (.End t gt st q) ∉ s) ∧
         (∀ e, Except.error e ∉ s)))) ∧
    (∀ (popt : Option PrefillTokens) (toks : List Token) (t : Token)
        (gt : GeneratedText) (st q : Nat),
      generate ((popt.elim [] (fun pt => [.ok (.Prefill pt)])) ++
          toks.map (fun tk => .ok (.Token tk)) ++ [.ok (.End t gt st q)]) =
        .ok { prefill := popt.elim [] prefillToTokens, tokens := toks ++ [t],
              generated_text := gt, queued := q, start := st }) := by
  constructor
  · intro s herr
    constructor
    · intro hinc
      by_cases he : ∀ e, Except.error e ∉ s
      · refine ⟨?_, he⟩
        intro t gt st q hend
        obtain ⟨out, hout⟩ := generateLoop_ok_of_no_err s [] [] none none none he
        obtain ⟨g1, s1, q1, h3⟩ :=
          generateLoop_end_some s [] [] none none none out he
            ⟨t, gt, st, q, hend⟩ hout
        unfold generate at hinc
        rw [hout] at hinc
        obtain ⟨pf', tk', rest3⟩ := out
        simp only at h3
        rw [h3] at hinc
        simp only at hinc
        exact Except.noConfusion hinc
      · exfalso
        push_neg at he
        obtain ⟨e, hm⟩ := he
        obtain ⟨e', he', hm'⟩ :=
          generateLoop_first_err s [] [] none none none ⟨e, hm⟩
        unfold generate at hinc
        rw [he'] at hinc
        obtain ⟨m, hge⟩ := herr e' hm'
        rw [hge] at hinc
        exact InferError.noConfusion (Except.error.inj hinc)
    · rintro ⟨hnoend, hnoerr⟩
      obtain ⟨out, hout⟩ :=
        generateLoop_ok_of_no_err s [] [] none none none hnoerr
      have h3 := generateLoop_no_end s [] [] none none none out hout hnoend
      unfold generate
      rw [hout]
      obtain ⟨pf', tk', rest3⟩ := out
      simp only at h3
      rw [h3]
  · intro popt toks t gt st q
    cases popt with
    | none =>
      simp only [Option.elim, List.nil_append]
      unfold generate
      rw [generateLoop_tokens toks [Except.ok (.End t gt st q)] [] [] none
        none none]
      simp [generateLoop]
    | some pt =>
      simp only [Option.elim, List.singleton_append, List.cons_append]
      unfold generate
      show (match generateLoop (List.map (fun tk => Except.ok (.Token tk))
          toks ++ [Except.ok (.End t gt st q)]) (prefillToTokens pt) [] none
          none none with
        | .error e => Except.error e
        | .ok (rp, rt, g, s', q') => _) = _
      rw [generateLoop_tokens toks [Except.ok (.End t gt st q)]
        (prefillToTokens pt) [] none none none]
      simp [generateLoop]

/-- Claim C7, witness: the empty stream is incomplete; a
`Prefill Token End` stream reassembles into the full response. -/
theorem generate_end_or_incomplete_witness :
    (generate [] = .error .IncompleteGeneration ↔
      ((∀ t gt st q, Except.ok (.End t gt st q) ∉ ([] : List Msg)) ∧
       (∀ e, Except.error e ∉ ([] : List Msg)))) ∧
    generate [.ok (.Prefill { ids := [1], logprobs := [0], texts := ["a"] }),
        .ok (.Token { id := 2, text := "b", logprob := 0 }),
        .ok (.End { id := 3, text := "c", logprob := 0 }
          { text := "bc", generated_tokens := 2, finish_reason := "length",
            seed := none } 4 1)] =
      .ok { prefill :=
              prefillToTokens { ids := [1], logprobs := [0], texts := ["a"] },
            tokens := [{ id := 2, text := "b", logprob := 0 },
                       { id := 3, text := "c", logprob := 0 }],
            generated_text := { text := "bc", generated_tokens := 2,
                                finish_reason := "length", seed := none },
            queued := 1, start := 4 } :=
  ⟨generate_end_or_incomplete.1 [] (by simp),
   generate_end_or_incomplete.2
     (some { ids := [1], logprobs := [0], texts := ["a"] })
     [{ id := 2, text := "b", logprob := 0 }]
     { id := 3, text := "c", logprob := 0 }
     { text := "bc", generated_tokens := 2, finish_reason := "length",
       seed := none } 4 1⟩

/-- Claim C8: with no admission permit available, `generate_stream` returns
`Overloaded` and leaves everything untouched: the queue is exactly as
before and the dispatcher is not notified. -/
theorem overload_rejection (validation : Except String (Nat × Nat)) (db : Db)
    (now : Nat) :
    generate_stream 0 validation db now =
      { result := .error .Overloaded, gate := 0, db := db,
        notified := false } := rfl


theorem isPrefillMsg_false_of_token (m : Msg) (h : isTokenMsg m = true) :
    isPrefillMsg m = false := by
  cases m with
  | error e => rfl
  | ok v => cases v <;> simp_all [isTokenMsg, isPrefillMsg]

theorem isEndMsg_false_of_token (m : Msg) (h : isTokenMsg m = true) :
    isEndMsg m = false := by
  cases m with
  | error e => rfl
  | ok v => cases v <;> simp_all [isTokenMsg, isEndMsg]

theorem isEndMsg_false_of_err (m : Msg) (h : isErrMsg m = true) :
    isEndMsg m = false := by
  cases m with
  | error e => rfl
  | ok v => cases v <;> simp_all [isErrMsg, isEndMsg]

theorem sessionShape_of_openShape (ms : List Msg) (h : openShape ms = true) :
    sessionShape ms = true := by
  have htt : ∀ t : List Msg, tokensOnly t = true → tokensThenTerminal t = true := by
    intro t
    induction t with
    | nil => intro _; rfl
    | cons a t' ih =>
      intro ht
      simp only [tokensOnly, List.all_cons, Bool.and_eq_true] at ht
      simp only [tokensThenTerminal, Bool.or_eq_true, Bool.and_eq_true]
      exact Or.inl ⟨ht.1, ih (by simp [tokensOnly, ht.2])⟩
  cases ms with
  | nil => rfl
  | cons m rest =>
    simp only [openShape] at h
    simp only [sessionShape]
    by_cases hp : isPrefillMsg m = true
    · rw [if_pos hp] at h ⊢
      exact htt rest h
    · rw [if_neg hp] at h ⊢
      exact htt _ h

theorem tokensThenTerminal_end (ms : List Msg)
    (h : tokensThenTerminal ms = true) (he : ms.any isEndMsg = true) :
    tokensThenEnd ms = true := by
  induction ms with
  | nil => simp at he
  | cons m rest ih =>
    simp only [tokensThenTerminal, Bool.or_eq_true, Bool.and_eq_true] at h
    simp only [List.any_cons, Bool.or_eq_true] at he
    simp only [tokensThenEnd, Bool.or_eq_true, Bool.and_eq_true]
    rcases h with ⟨htok, hrest⟩ | ⟨hterm, hemp⟩
    · rcases he with hm | hrest'
      · rw [isEndMsg_false_of_token m htok] at hm
        exact Bool.noConfusion hm
      · exact Or.inl ⟨htok, ih hrest hrest'⟩
    · rcases he with hm | hrest'
      · exact Or.inr ⟨hm, hemp⟩
      · rw [List.isEmpty_iff] at hemp
        subst hemp
        simp at hrest'

theorem endGrammar_of_sessionShape (ms : List Msg)
    (h : sessionShape ms = true) (he : ms.any isEndMsg = true) :
    endGrammar ms = true := by
  cases ms with
  | nil => simp at he
  | cons m rest =>
    simp only [sessionShape] at h
    simp only [endGrammar]
    by_cases hp : isPrefillMsg m = true
    · rw [if_pos hp] at h ⊢
      refine tokensThenTerminal_end rest h ?_
      simp only [List.any_cons, Bool.or_eq_true] at he
      rcases he with hm | hr
      · exfalso
        cases m with
        | error e => exact Bool.noConfusion hp
        | ok v => cases v <;> simp_all [isPrefillMsg, isEndMsg]
      · exact hr
    · rw [if_neg hp] at h ⊢
      exact tokensThenTerminal_end _ h he

theorem streamOf_append (r : Nat) (t1 t2 : Trace) :
    streamOf r (t1 ++ t2) = streamOf r t1 ++ streamOf r t2 := by
  simp [streamOf, List.filter_append]

theorem streamOf_nil_of_forall (r i : Nat) (tr : Trace)
    (h : ∀ p ∈ tr, p.1 = i) (hne : r ≠ i) : streamOf r tr = [] := by
  induction tr with
  | nil => rfl
  | cons p rest ih =>
    have hp : p.1 = i := h p (List.mem_cons_self _ _)
    have hb : (p.1 == r) = false := by
      simp only [beq_eq_false_iff_ne, ne_eq, hp]
      exact fun hc => hne hc.symm
    simp only [streamOf, List.filter_cons, hb]
    exact ih (fun q hq => h q (List.mem_cons_of_mem _ hq))

theorem openShape_append_token (ms : List Msg) (m : Msg)
    (h : openShape ms = true) (ht : isTokenMsg m = true) :
    openShape (ms ++ [m]) = true := by
  have htk : ∀ t : List Msg, tokensOnly t = true → tokensOnly (t ++ [m]) = true := by
    intro t ht'
    simp only [tokensOnly, List.all_append, Bool.and_eq_true] at *
    exact ⟨ht', by simp [ht]⟩
  cases ms with
  | nil =>
    simp only [List.nil_append, openShape,
      isPrefillMsg_false_of_token m ht, if_false]
    simp [tokensOnly, ht]
  | cons a rest =>
    simp only [List.cons_append, openShape] at h ⊢
    by_cases hp : isPrefillMsg a = true
    · rw [if_pos hp] at h ⊢
      exact htk rest h
    · rw [if_neg hp] at h ⊢
      exact htk _ h

theorem sessionShape_append_terminal (ms : List Msg) (m : Msg)
    (h : openShape ms = true) (ht : isTerminalMsg m = true) :
    sessionShape (ms ++ [m]) = true := by
  have htk : ∀ t : List Msg, tokensOnly t = true →
      tokensThenTerminal (t ++ [m]) = true := by
    intro t
    induction t with
    | nil =>
      intro _
      simp [tokensThenTerminal, ht]
    | cons a t' ih =>
      intro ht'
      simp only [tokensOnly, List.all_cons, Bool.and_eq_true] at ht'
      simp only [List.cons_append, tokensThenTerminal, Bool.or_eq_true,
        Bool.and_eq_true]
      exact Or.inl ⟨ht'.1, ih (by simp [tokensOnly, ht'.2])⟩
  cases ms with
  | nil =>
    cases m with
    | error e => simp [sessionShape, isPrefillMsg, tokensThenTerminal,
        isTerminalMsg, isErrMsg]
    | ok v =>
      cases v <;>
        simp_all [sessionShape, isPrefillMsg, tokensThenTerminal,
          isTerminalMsg, isEndMsg, isErrMsg, isTokenMsg]
  | cons a rest =>
    simp only [List.cons_append, sessionShape, openShape] at h ⊢
    by_cases hp : isPrefillMsg a = true
    · rw [if_pos hp] at h ⊢
      exact htk rest h
    · rw [if_neg hp] at h ⊢
      exact htk _ h


theorem removeEntry_map_fst_sublist (V : Entries) (x : Nat) :
    ((removeEntry V x).map Prod.fst).Sublist (V.map Prod.fst) := by
  induction V with
  | nil => simp [removeEntry]
  | cons p rest ih =>
    obtain ⟨i, e⟩ := p
    by_cases hp : i = x
    · simp only [removeEntry, hp, if_true, List.map_cons]
      exact (List.sublist_cons_self _ _)
    · simp only [removeEntry, hp, if_false, List.map_cons]
      exact List.Sublist.cons₂ _ ih

theorem not_mem_removeEntry (V : Entries) (x : Nat)
    (h : (V.map Prod.fst).Nodup) : x ∉ (removeEntry V x).map Prod.fst := by
  induction V with
  | nil => simp [removeEntry]
  | cons p rest ih =>
    obtain ⟨i, e⟩ := p
    simp only [List.map_cons, List.nodup_cons] at h
    by_cases hp : i = x
    · subst hp
      simp only [removeEntry, if_true]
      exact h.1
    · simp only [removeEntry, hp, if_false, List.map_cons, List.mem_cons,
        not_or]
      exact ⟨fun hc => hp hc.symm, ih h.2⟩

theorem mem_removeEntry_of_ne (V : Entries) (x r : Nat)
    (hr : r ∈ V.map Prod.fst) (hne : r ≠ x) :
    r ∈ (removeEntry V x).map Prod.fst := by
  induction V with
  | nil => simp at hr
  | cons p rest ih =>
    obtain ⟨i, e⟩ := p
    simp only [List.map_cons, List.mem_cons] at hr
    by_cases hp : i = x
    · subst hp
      simp only [removeEntry, if_true]
      rcases hr with hr | hr
      · exact absurd hr hne
      · exact hr
    · simp only [removeEntry, hp, if_false, List.map_cons, List.mem_cons]
      rcases hr with hr | hr
      · exact Or.inl hr
      · exact Or.inr (ih hr)

theorem lookupEntry_mem (V : Entries) (r : Nat) (e : Entry)
    (h : lookupEntry V r = some e) : r ∈ V.map Prod.fst := by
  induction V with
  | nil => exact Option.noConfusion h
  | cons p rest ih =>
    obtain ⟨i, e'⟩ := p
    simp only [lookupEntry] at h
    by_cases hp : i = r
    · simp [hp]
    · rw [if_neg hp] at h
      simp only [List.map_cons, List.mem_cons]
      exact Or.inr (ih h)

theorem streamOf_single_eq (r : Nat) (m : Msg) : streamOf r [(r, m)] = [m] := by
  simp [streamOf]

theorem streamOf_single_ne (r i : Nat) (m : Msg) (h : i ≠ r) :
    streamOf r [(i, m)] = [] := by
  simp only [streamOf, List.filter_cons]
  have hb : (i == r) = false := by simp [h]
  simp [hb]


theorem sendOne_local (V : Entries) (g : Generation) (trace : Trace)
    (V1 : Entries) (tr1 : Trace)
    (h : sendOne V g = .ok (V1, tr1))
    (hnodup : (V.map Prod.fst).Nodup)
    (hpf : g.prefill_tokens = none ∨ streamOf g.request_id trace = [])
    (hopen : ∀ r ∈ V.map Prod.fst, openShape (streamOf r trace) = true) :
    (V1.map Prod.fst).Nodup ∧
    (∀ r ∈ V1.map Prod.fst, r ∈ V.map Prod.fst) ∧
    (∀ p ∈ tr1, p.1 = g.request_id) ∧
    (∀ r ∈ V1.map Prod.fst, openShape (streamOf r (trace ++ tr1)) = true) ∧
    (∀ r ∈ V.map Prod.fst, r ∉ V1.map Prod.fst →
      sessionShape (streamOf r (trace ++ tr1)) = true) ∧
    (∀ r, r ≠ g.request_id → streamOf r (trace ++ tr1) = streamOf r trace) := by
  unfold sendOne at h
  cases hl : lookupEntry V g.request_id with
  | none => rw [hl] at h; exact Except.noConfusion h
  | some entry =>
    rw [hl] at h
    have hmem : g.request_id ∈ V.map Prod.fst := lookupEntry_mem V _ entry hl
    dsimp only at h
    -- frame for any trace addition touching only g.request_id
    have hframe : ∀ (tr' : Trace), (∀ p ∈ tr', p.1 = g.request_id) →
        ∀ r, r ≠ g.request_id → streamOf r (trace ++ tr') = streamOf r trace := by
      intro tr' hids r hr
      rw [streamOf_append, streamOf_nil_of_forall r g.request_id tr' hids hr,
        List.append_nil]
    cases hgt : g.generated_text with
    | none =>
      rw [hgt] at h
      cases hpt : g.prefill_tokens with
      | none =>
        rw [hpt] at h
        dsimp only at h
        injection h with h
        have h1 : V = V1 := congrArg Prod.fst h
        have h2 : [(g.request_id,
            Except.ok (InferStreamResponse.Token
              { id := g.token_id, text := g.token_text,
                logprob := g.token_logprob }))] = tr1 := by
          have := congrArg Prod.snd h
          simpa using this
        subst h1
        subst h2
        have hids : ∀ p ∈ ([(g.request_id,
            Except.ok (InferStreamResponse.Token
              { id := g.token_id, text := g.token_text,
                logprob := g.token_logprob }))] : Trace), p.1 = g.request_id := by
          simp
        refine ⟨hnodup, fun r hr => hr, hids, ?_, ?_, hframe _ hids⟩
        · intro r hr
          by_cases hrg : r = g.request_id
          · subst hrg
            rw [streamOf_append, streamOf_single_eq]
            exact openShape_append_token _ _ (hopen _ hr) (by simp [isTokenMsg])
          · rw [hframe _ hids r hrg]
            exact hopen r hr
        · intro r hr hnr
          exact absurd hr hnr
      | some pt =>
        rw [hpt] at h
        dsimp only at h
        have hpf' : streamOf g.request_id trace = [] := by
          rcases hpf with hpf | hpf
          · rw [hpt] at hpf; exact Option.noConfusion hpf
          · exact hpf
        injection h with h
        have h1 : V = V1 := congrArg Prod.fst h
        have h2 : [(g.request_id, Except.ok (InferStreamResponse.Prefill pt)),
            (g.request_id,
              Except.ok (InferStreamResponse.Token
                { id := g.token_id, text := g.token_text,
                  logprob := g.token_logprob }))] = tr1 := by
          have := congrArg Prod.snd h
          simpa using this
        subst h1
        subst h2
        have hids : ∀ p ∈ ([(g.request_id,
            Except.ok (InferStreamResponse.Prefill pt)),
            (g.request_id,
              Except.ok (InferStreamResponse.Token
                { id := g.token_id, text := g.token_text,
                  logprob := g.token_logprob }))] : Trace), p.1 = g.request_id := by
          simp
        refine ⟨hnodup, fun r hr => hr, hids, ?_, ?_, hframe _ hids⟩
        · intro r hr
          by_cases hrg : r = g.request_id
          · subst hrg
            rw [streamOf_append, hpf', List.nil_append]
            simp [streamOf, openShape, isPrefillMsg, tokensOnly, isTokenMsg]
          · rw [hframe _ hids r hrg]
            exact hopen r hr
        · intro r hr hnr
          exact absurd hr hnr
    | some gt =>
      rw [hgt] at h
      cases hbt : entry.batch_time with
      | none => rw [hbt] at h; exact Except.noConfusion h
      | some bt =>
        rw [hbt] at h
        cases hpt : g.prefill_tokens with
        | none =>
          rw [hpt] at h
          dsimp only at h
          injection h with h
          have h1 : removeEntry V g.request_id = V1 := congrArg Prod.fst h
          have h2 : [(g.request_id,
              Except.ok (InferStreamResponse.End
                { id := g.token_id, text := g.token_text,
                  logprob := g.token_logprob } gt bt entry.time))] = tr1 := by
            have := congrArg Prod.snd h
            simpa using this
          subst h1
          subst h2
          have hids : ∀ p ∈ ([(g.request_id,
              Except.ok (InferStreamResponse.End
                { id := g.token_id, text := g.token_text,
                  logprob := g.token_logprob } gt bt entry.time))] : Trace),
              p.1 = g.request_id := by simp
          refine ⟨hnodup.sublist (removeEntry_map_fst_sublist V g.request_id),
            fun r hr => (removeEntry_map_fst_sublist V g.request_id).mem hr,
            hids, ?_, ?_, hframe _ hids⟩
          · intro r hr
            have hrg : r ≠ g.request_id := fun hc =>
              not_mem_removeEntry V g.request_id hnodup (hc ▸ hr)
            rw [hframe _ hids r hrg]
            exact hopen r ((removeEntry_map_fst_sublist V g.request_id).mem hr)
          · intro r hr hnr
            have hrg : r = g.request_id := by
              by_contra hc
              exact hnr (mem_removeEntry_of_ne V g.request_id r hr hc)
            subst hrg
            rw [streamOf_append, streamOf_single_eq]
            exact sessionShape_append_terminal _ _ (hopen _ hr)
              (by simp [isTerminalMsg, isEndMsg])
        | some pt =>
          rw [hpt] at h
          dsimp only at h
          have hpf' : streamOf g.request_id trace = [] := by
            rcases hpf with hpf | hpf
            · rw [hpt] at hpf; exact Option.noConfusion hpf
            · exact hpf
          injection h with h
          have h1 : removeEntry V g.request_id = V1 := congrArg Prod.fst h
          have h2 : [(g.request_id, Except.ok (InferStreamResponse.Prefill pt)),
              (g.request_id,
                Except.ok (InferStreamResponse.End
                  { id := g.token_id, text := g.token_text,
                    logprob := g.token_logprob } gt bt entry.time))] = tr1 := by
            have := congrArg Prod.snd h
            simpa using this
          subst h1
          subst h2
          have hids : ∀ p ∈ ([(g.request_id,
              Except.ok (InferStreamResponse.Prefill pt)),
              (g.request_id,
                Except.ok (InferStreamResponse.End
                  { id := g.token_id, text := g.token_text,
                    logprob := g.token_logprob } gt bt entry.time))] : Trace),
              p.1 = g.request_id := by simp
          refine ⟨hnodup.sublist (removeEntry_map_fst_sublist V g.request_id),
            fun r hr => (removeEntry_map_fst_sublist V g.request_id).mem hr,
            hids, ?_, ?_, hframe _ hids⟩
          · intro r hr
            have hrg : r ≠ g.request_id := fun hc =>
              not_mem_removeEntry V g.request_id hnodup (hc ▸ hr)
            rw [hframe _ hids r hrg]
            exact hopen r ((removeEntry_map_fst_sublist V g.request_id).mem hr)
          · intro r hr hnr
            have hrg : r = g.request_id := by
              by_contra hc
              exact hnr (mem_removeEntry_of_ne V g.request_id r hr hc)
            subst hrg
            rw [streamOf_append, hpf', List.nil_append]
            simp [streamOf, sessionShape, isPrefillMsg, tokensThenTerminal,
              isTerminalMsg, isEndMsg]


theorem send_generations_ids (gens : List Generation) :
    ∀ (V V' : Entries) (tr : Trace),
    send_generations gens V = .ok (V', tr) →
    ∀ g ∈ gens, g.request_id ∈ V.map Prod.fst := by
  induction gens with
  | nil => intro V V' tr h g hg; simp at hg
  | cons g0 rest ih =>
    intro V V' tr h g hg
    simp only [send_generations] at h
    cases hso : sendOne V g0 with
    | error k => rw [hso] at h; simp only [bind, Except.bind] at h
                 exact Except.noConfusion h
    | ok v =>
      obtain ⟨V1, tr1⟩ := v
      rw [hso] at h
      simp only [bind, Except.bind] at h
      cases hsg : send_generations rest V1 with
      | error k => rw [hsg] at h; simp only [bind, Except.bind] at h
                   exact Except.noConfusion h
      | ok v2 =>
        obtain ⟨V2, tr2⟩ := v2
        rcases List.mem_cons.mp hg with hg | hg
        · subst hg
          unfold sendOne at hso
          cases hl : lookupEntry V g.request_id with
          | none => rw [hl] at hso; exact Except.noConfusion hso
          | some entry => exact lookupEntry_mem V _ entry hl
        · have hmem := ih V1 V2 tr2 hsg g hg
          rcases sendOne_ok_entries V g0 V1 tr1 hso with he | he
          · exact he ▸ hmem
          · rw [he] at hmem
            exact (removeEntry_map_fst_sublist V g0.request_id).mem hmem

theorem send_generations_local (gens : List Generation) :
    ∀ (V V' : Entries) (trace tr : Trace),
    send_generations gens V = .ok (V', tr) →
    (V.map Prod.fst).Nodup →
    ((∀ g ∈ gens, g.prefill_tokens = none) ∨
      ((gens.map Generation.request_id).Nodup ∧
       ∀ g ∈ gens, streamOf g.request_id trace = [])) →
    (∀ r ∈ V.map Prod.fst, openShape (streamOf r trace) = true) →
    (V'.map Prod.fst).Nodup ∧
    (∀ r ∈ V'.map Prod.fst, r ∈ V.map Prod.fst) ∧
    (∀ p ∈ tr, p.1 ∈ V.map Prod.fst) ∧
    (∀ r ∈ V'.map Prod.fst, openShape (streamOf r (trace ++ tr)) = true) ∧
    (∀ r ∈ V.map Prod.fst, r ∉ V'.map Prod.fst →
      sessionShape (streamOf r (trace ++ tr)) = true) ∧
    (∀ r, r ∉ V.map Prod.fst → streamOf r (trace ++ tr) = streamOf r trace) := by
  induction gens with
  | nil =>
    intro V V' trace tr h hnd hpf hopen
    simp only [send_generations] at h
    injection h with h
    have h1 : V = V' := congrArg Prod.fst h
    have h2 : ([] : Trace) = tr := congrArg Prod.snd h
    subst h1
    subst h2
    refine ⟨hnd, fun r hr => hr, by simp, ?_, ?_, ?_⟩
    · intro r hr; rw [List.append_nil]; exact hopen r hr
    · intro r hr hnr; exact absurd hr hnr
    · intro r hr; rw [List.append_nil]
  | cons g0 rest ih =>
    intro V V' trace tr h hnd hpf hopen
    simp only [send_generations] at h
    cases hso : sendOne V g0 with
    | error k => rw [hso] at h; simp only [bind, Except.bind] at h
                 exact Except.noConfusion h
    | ok v =>
      obtain ⟨V1, tr1⟩ := v
      rw [hso] at h
      simp only [bind, Except.bind] at h
      cases hsg : send_generations rest V1 with
      | error k => rw [hsg] at h; simp only [bind, Except.bind] at h
                   exact Except.noConfusion h
      | ok v2 =>
        obtain ⟨V2, tr2⟩ := v2
        rw [hsg] at h
        simp only [bind, Except.bind] at h
        injection h with h
        have h1 : V2 = V' := congrArg Prod.fst h
        have h2 : tr1 ++ tr2 = tr := congrArg Prod.snd h
        subst h1
        subst h2
        have hpf0 : g0.prefill_tokens = none ∨
            streamOf g0.request_id trace = [] := by
          rcases hpf with hpf | hpf
          · exact Or.inl (hpf g0 (List.mem_cons_self _ _))
          · exact Or.inr (hpf.2 g0 (List.mem_cons_self _ _))
        obtain ⟨s1nd, s1sub, s1ids, s1open, s1leave, s1frame⟩ :=
          sendOne_local V g0 trace V1 tr1 hso hnd hpf0 hopen
        have hpf' : (∀ g ∈ rest, g.prefill_tokens = none) ∨
            ((rest.map Generation.request_id).Nodup ∧
             ∀ g ∈ rest, streamOf g.request_id (trace ++ tr1) = []) := by
          rcases hpf with hpf | hpf
          · exact Or.inl (fun g hg => hpf g (List.mem_cons_of_mem _ hg))
          · have hnd0 : (g0.request_id ::
                rest.map Generation.request_id).Nodup := by
              simpa using hpf.1
            refine Or.inr ⟨(List.nodup_cons.mp hnd0).2, ?_⟩
            intro g hg
            have hne : g.request_id ≠ g0.request_id := by
              have hnotin := (List.nodup_cons.mp hnd0).1
              exact fun hc => hnotin (hc ▸ List.mem_map_of_mem
                Generation.request_id hg)
            rw [s1frame g.request_id hne]
            exact hpf.2 g (List.mem_cons_of_mem _ hg)
        obtain ⟨s2nd, s2sub, s2ids, s2open, s2leave, s2frame⟩ :=
          ih V1 _ (trace ++ tr1) tr2 hsg s1nd hpf' s1open
        have hgmem : g0.request_id ∈ V.map Prod.fst := by
          unfold sendOne at hso
          cases hl : lookupEntry V g0.request_id with
          | none => rw [hl] at hso; exact Except.noConfusion hso
          | some entry => exact lookupEntry_mem V _ entry hl
        refine ⟨s2nd, fun r hr => s1sub r (s2sub r hr), ?_, ?_, ?_, ?_⟩
        · intro p hp
          rcases List.mem_append.mp hp with hp | hp
          · exact (s1ids p hp) ▸ hgmem
          · exact s1sub p.1 (s2ids p hp)
        · intro r hr
          rw [← List.append_assoc]
          exact s2open r hr
        · intro r hr hnr
          by_cases h1r : r ∈ V1.map Prod.fst
          · rw [← List.append_assoc]
            exact s2leave r h1r hnr
          · rw [← List.append_assoc, s2frame r h1r]
            exact s1leave r hr h1r
        · intro r hr
          have h1r : r ∉ V1.map Prod.fst := fun hc => hr (s1sub r hc)
          rw [← List.append_assoc, s2frame r h1r]
          have hne : r ≠ g0.request_id := fun hc => hr (hc ▸ hgmem)
          exact s1frame r hne


theorem wrap_future_local (res : ClientResult) (V V' : Entries)
    (nb : Option Batch) (trace tr : Trace)
    (h : wrap_future res V = .ok (nb, V', tr))
    (hnd : (V.map Prod.fst).Nodup)
    (hshape : (noPrefillTokens res = true ∧
        ∀ r ∈ V.map Prod.fst, openShape (streamOf r trace) = true) ∨
      (distinctIds res = true ∧
        ∀ r ∈ V.map Prod.fst, streamOf r trace = [])) :
    (V'.map Prod.fst).Nodup ∧
    (∀ r ∈ V'.map Prod.fst, r ∈ V.map Prod.fst) ∧
    (∀ p ∈ tr, p.1 ∈ V.map Prod.fst) ∧
    (∀ r ∈ V'.map Prod.fst, openShape (streamOf r (trace ++ tr)) = true) ∧
    (∀ r ∈ V.map Prod.fst, r ∉ V'.map Prod.fst →
      sessionShape (streamOf r (trace ++ tr)) = true) ∧
    (∀ r, r ∉ V.map Prod.fst → streamOf r (trace ++ tr) = streamOf r trace) := by
  have hopen : ∀ r ∈ V.map Prod.fst, openShape (streamOf r trace) = true := by
    rcases hshape with ⟨-, ho⟩ | ⟨-, he⟩
    · exact ho
    · intro r hr; rw [he r hr]; rfl
  cases res with
  | error e =>
    simp only [wrap_future, send_error] at h
    injection h with h
    have h2 : ([] : Entries) = V' := congrArg (fun v => v.2.1) h
    have h3 : V.map (fun p => (p.1,
        Except.error (InferError.GenerationError e))) = tr :=
      congrArg (fun v => v.2.2) h
    subst h2
    subst h3
    have htr : V.map (fun p => (p.1,
        Except.error (InferError.GenerationError e))) = (send_error e V).2 :=
      rfl
    refine ⟨List.nodup_nil, by simp, ?_, by simp, ?_, ?_⟩
    · intro p hp
      obtain ⟨q, hq, hpq⟩ := List.mem_map.mp hp
      rw [← hpq]
      exact List.mem_map_of_mem Prod.fst hq
    · intro r hr hnr
      rw [streamOf_append, htr, streamOf_sendError,
        List.count_eq_one_of_mem hnd hr]
      exact sessionShape_append_terminal _ _ (hopen r hr)
        (by simp [isTerminalMsg, isErrMsg])
    · intro r hr
      rw [streamOf_append, htr, streamOf_sendError,
        List.count_eq_zero_of_not_mem hr]
      simp
  | ok v =>
    obtain ⟨gens, nb0⟩ := v
    simp only [wrap_future] at h
    cases hsg : send_generations gens V with
    | error k =>
      rw [hsg] at h
      simp only [bind, Except.bind] at h
      exact Except.noConfusion h
    | ok v2 =>
      obtain ⟨V2, tr2⟩ := v2
      rw [hsg] at h
      simp only [bind, Except.bind] at h
      injection h with h
      have h2 : V2 = V' := congrArg (fun v => v.2.1) h
      have h3 : tr2 = tr := congrArg (fun v => v.2.2) h
      subst h2
      subst h3
      have hpf : (∀ g ∈ gens, g.prefill_tokens = none) ∨
          ((gens.map Generation.request_id).Nodup ∧
           ∀ g ∈ gens, streamOf g.request_id trace = []) := by
        rcases hshape with ⟨hl, -⟩ | ⟨hl, he⟩
        · left
          intro g hg
          simp only [noPrefillTokens, List.all_eq_true] at hl
          exact Option.isNone_iff_eq_none.mp (hl g hg)
        · right
          refine ⟨of_decide_eq_true hl, ?_⟩
          intro g hg
          exact he g.request_id (send_generations_ids gens V _ _ hsg g hg)
      exact send_generations_local gens V _ trace _ hsg hnd hpf hopen


theorem GoodState_drop_suffix (E X : Entries) (db : Db) (trace : Trace)
    (hG : GoodState (E ++ X) db trace) : GoodState E db trace := by
  have hmemE : ∀ r ∈ E.map Prod.fst, r ∈ (E ++ X).map Prod.fst := by
    intro r hr; simp only [List.map_append, List.mem_append]; exact Or.inl hr
  refine ⟨?_, hG.dbNodup, ?_, ?_, hG.dbLt, hG.dbFresh, hG.highFresh, ?_, ?_⟩
  · have := hG.viewNodup
    simp only [List.map_append] at this
    exact this.of_append_left
  · intro r hr; exact hG.disj r (hmemE r hr)
  · intro r hr; exact hG.viewLt r (hmemE r hr)
  · intro r hr; exact hG.viewOpen r (hmemE r hr)
  · intro r hr
    by_cases hx : r ∈ (E ++ X).map Prod.fst
    · exact sessionShape_of_openShape _ (hG.viewOpen r hx)
    · exact hG.othersOK r hx

theorem GoodState_append_entry (db : Db) (trace : Trace) (e : Entry)
    (hG : GoodState [] db trace) : GoodState [] (db.append e).1 trace := by
  refine ⟨List.nodup_nil, ?_, by simp, by simp, ?_, ?_, ?_, by simp,
    hG.othersOK⟩
  · simp only [Db.append, List.map_append, List.map_cons, List.map_nil]
    rw [List.nodup_append]
    refine ⟨hG.dbNodup, List.nodup_singleton _, ?_⟩
    intro r hr hc
    simp only [List.mem_singleton] at hc
    subst hc
    exact absurd (hG.dbLt _ hr) (lt_irrefl _)
  · intro r hr
    simp only [Db.append, List.map_append, List.map_cons, List.map_nil,
      List.mem_append, List.mem_singleton] at hr
    simp only [Db.append]
    rcases hr with hr | hr
    · exact Nat.lt_succ_of_lt (hG.dbLt r hr)
    · subst hr; exact Nat.lt_succ_self _
  · intro r hr
    simp only [Db.append, List.map_append, List.map_cons, List.map_nil,
      List.mem_append, List.mem_singleton] at hr
    rcases hr with hr | hr
    · exact hG.dbFresh r hr
    · subst hr; exact hG.highFresh _ (le_refl _)
  · intro r hr
    simp only [Db.append] at hr
    exact hG.highFresh r (Nat.le_of_succ_le hr)

theorem map_fst_marktime (l : List (Nat × Entry)) (now : Nat) :
    (l.map (fun p => (p.1, { p.2 with batch_time := some now }))).map
      Prod.fst = l.map Prod.fst := by
  induction l with
  | nil => rfl
  | cons p rest ih => simp [ih]

theorem next_batch_parts (db : Db) (ms : Option Nat) (k now : Nat)
    (N : Entries) (b : Batch) (db1 : Db)
    (h : db.next_batch ms k now = some (N, b, db1)) :
    (N.map Prod.fst).Sublist (db.entries.map Prod.fst) ∧
    (db1.entries.map Prod.fst).Sublist (db.entries.map Prod.fst) ∧
    ((db.entries.map Prod.fst).Nodup →
      ∀ r ∈ N.map Prod.fst, r ∉ db1.entries.map Prod.fst) ∧
    db1.counter = db.counter := by
  unfold Db.next_batch at h
  dsimp only at h
  split at h
  · exact (Option.noConfusion h)
  · injection h with h
    have h1 := congrArg (fun v : Entries × Batch × Db => v.1) h
    have h3 := congrArg (fun v : Entries × Batch × Db => v.2.2) h
    dsimp only at h1 h3
    subst h1
    subst h3
    have hlivesub : ((db.entries.filter (fun p => !p.2.closed)).map
        Prod.fst).Sublist (db.entries.map Prod.fst) :=
      (List.filter_sublist _).map Prod.fst
    refine ⟨?_, ?_, ?_, rfl⟩
    · rw [map_fst_marktime]
      exact ((List.take_sublist _ _).map Prod.fst).trans hlivesub
    · exact ((List.drop_sublist _ _).map Prod.fst).trans hlivesub
    · intro hnd r hrN hrD
      have hlnd : ((db.entries.filter (fun p => !p.2.closed)).map
          Prod.fst).Nodup := hnd.sublist hlivesub
      rw [map_fst_marktime, List.map_take] at hrN
      rw [List.map_drop] at hrD
      exact absurd hrD (List.disjoint_take_drop hlnd (le_refl k) hrN)


theorem GoodState_next_batch (E : Entries) (db : Db) (trace : Trace)
    (ms : Option Nat) (k now : Nat) (N : Entries) (b : Batch) (db1 : Db)
    (hG : GoodState E db trace)
    (h : db.next_batch ms k now = some (N, b, db1)) :
    GoodState (E ++ N) db1 trace ∧
    (∀ r ∈ N.map Prod.fst, streamOf r trace = []) := by
  obtain ⟨hNsub, hDsub, hdisj, hcnt⟩ :=
    next_batch_parts db ms k now N b db1 h
  have hNdb : ∀ r ∈ N.map Prod.fst, r ∈ db.entries.map Prod.fst :=
    fun r hr => hNsub.mem hr
  have hNfresh : ∀ r ∈ N.map Prod.fst, streamOf r trace = [] :=
    fun r hr => hG.dbFresh r (hNdb r hr)
  have hEN : ∀ r ∈ E.map Prod.fst, r ∉ N.map Prod.fst :=
    fun r hr hc => hG.disj r hr (hNdb r hc)
  refine ⟨⟨?_, hG.dbNodup.sublist hDsub, ?_, ?_, ?_, ?_, ?_, ?_, ?_⟩, hNfresh⟩
  · rw [List.map_append, List.nodup_append]
    exact ⟨hG.viewNodup, hG.dbNodup.sublist hNsub, hEN⟩
  · intro r hr
    rw [List.map_append, List.mem_append] at hr
    rcases hr with hr | hr
    · exact fun hc => hG.disj r hr (hDsub.mem hc)
    · exact hdisj hG.dbNodup r hr
  · intro r hr
    rw [List.map_append, List.mem_append] at hr
    rw [hcnt]
    rcases hr with hr | hr
    · exact hG.viewLt r hr
    · exact hG.dbLt r (hNdb r hr)
  · intro r hr
    rw [hcnt]
    exact hG.dbLt r (hDsub.mem hr)
  · intro r hr
    exact hG.dbFresh r (hDsub.mem hr)
  · intro r hr
    rw [hcnt] at hr
    exact hG.highFresh r hr
  · intro r hr
    rw [List.map_append, List.mem_append] at hr
    rcases hr with hr | hr
    · exact hG.viewOpen r hr
    · rw [hNfresh r hr]; rfl
  · intro r hr
    rw [List.map_append, List.mem_append, not_or] at hr
    by_cases hrN : r ∈ N.map Prod.fst
    · exact absurd hrN hr.2
    · exact hG.othersOK r hr.1

theorem GoodState_after_wrap_sub (res : ClientResult) (E V V' : Entries)
    (db : Db) (trace tr : Trace) (nb : Option Batch)
    (h : wrap_future res V = .ok (nb, V', tr))
    (hG : GoodState (E ++ V) db trace)
    (hres : noPrefillTokens res = true ∨
      (distinctIds res = true ∧
        ∀ r ∈ V.map Prod.fst, streamOf r trace = [])) :
    GoodState (E ++ V') db (trace ++ tr) := by
  have hEVnd := hG.viewNodup
  rw [List.map_append, List.nodup_append] at hEVnd
  obtain ⟨hEnd, hVnd, hEVdisj⟩ := hEVnd
  have hmemV : ∀ r ∈ V.map Prod.fst, r ∈ (E ++ V).map Prod.fst := by
    intro r hr; rw [List.map_append, List.mem_append]; exact Or.inr hr
  have hmemE : ∀ r ∈ E.map Prod.fst, r ∈ (E ++ V).map Prod.fst := by
    intro r hr; rw [List.map_append, List.mem_append]; exact Or.inl hr
  have hshape : (noPrefillTokens res = true ∧
      ∀ r ∈ V.map Prod.fst, openShape (streamOf r trace) = true) ∨
    (distinctIds res = true ∧
      ∀ r ∈ V.map Prod.fst, streamOf r trace = []) := by
    rcases hres with hres | hres
    · exact Or.inl ⟨hres, fun r hr => hG.viewOpen r (hmemV r hr)⟩
    · exact Or.inr hres
  obtain ⟨wnd, wsub, wids, wopen, wleave, wframe⟩ :=
    wrap_future_local res V V' nb trace tr h hVnd hshape
  refine ⟨?_, hG.dbNodup, ?_, ?_, hG.dbLt, ?_, ?_, ?_, ?_⟩
  · rw [List.map_append, List.nodup_append]
    exact ⟨hEnd, wnd, fun r hr hc => hEVdisj hr (wsub r hc)⟩
  · intro r hr
    rw [List.map_append, List.mem_append] at hr
    rcases hr with hr | hr
    · exact hG.disj r (hmemE r hr)
    · exact hG.disj r (hmemV r (wsub r hr))
  · intro r hr
    rw [List.map_append, List.mem_append] at hr
    rcases hr with hr | hr
    · exact hG.viewLt r (hmemE r hr)
    · exact hG.viewLt r (hmemV r (wsub r hr))
  · intro r hr
    have hrV : r ∉ V.map Prod.fst := fun hc =>
      hG.disj r (hmemV r hc) hr
    rw [wframe r hrV]
    exact hG.dbFresh r hr
  · intro r hr
    have hrV : r ∉ V.map Prod.fst := fun hc =>
      absurd (hG.viewLt r (hmemV r hc)) (not_lt.mpr hr)
    rw [wframe r hrV]
    exact hG.highFresh r hr
  · intro r hr
    rw [List.map_append, List.mem_append] at hr
    rcases hr with hr | hr
    · have hrV : r ∉ V.map Prod.fst := fun hc => hEVdisj hr hc
      rw [wframe r hrV]
      exact hG.viewOpen r (hmemE r hr)
    · exact wopen r hr
  · intro r hr
    rw [List.map_append, List.mem_append, not_or] at hr
    by_cases hrV : r ∈ V.map Prod.fst
    · exact wleave r hrV hr.2
    · rw [wframe r hrV]
      refine hG.othersOK r ?_
      rw [List.map_append, List.mem_append, not_or]
      exact ⟨hr.1, hrV⟩


theorem decodeStep_preserves (cfg : Config) (env : StepEnv) (E : Entries)
    (batch : Batch) (wt : Nat) (db : Db) (clock : Nat) (r : StepResult)
    (trace : Trace)
    (h : decodeStep cfg env E batch wt db clock = .ok r)
    (hG : GoodState E db trace) (hok : stepEnvOK env = true) :
    GoodState r.entries r.db (trace ++ r.sent) := by
  have hokE : distinctIds env.extPrefill = true := by
    simp only [stepEnvOK, Bool.and_eq_true] at hok; exact hok.1
  have hokD : noPrefillTokens env.decode = true := by
    simp only [stepEnvOK, Bool.and_eq_true] at hok; exact hok.2
  obtain ⟨ext, cached1, entries2, tr2, hx, hwf, hr⟩ :=
    decodeStep_inv cfg env E batch wt db clock r h
  have hext : GoodState ext.entries ext.db (trace ++ ext.sent) := by
    rcases tryExtend_inv cfg env.extPrefill E batch wt db clock ext hx with
      ⟨hb, he⟩ | ⟨hb, ms, hms, hcase⟩
    · subst he
      simpa using hG
    · rcases hcase with ⟨hnb, he⟩ | ⟨ne, nb, db1, ne1, tr1, hnb, hwf2, he⟩ |
        ⟨ne, nb, db1, ncb, ne1, tr1, hnb, hwf2, he⟩
      · subst he
        simpa using hG
      · subst he
        dsimp only
        obtain ⟨hGN, hNfresh⟩ :=
          GoodState_next_batch E db trace ms _ clock ne nb db1 hG hnb
        have hGE := GoodState_after_wrap_sub env.extPrefill E ne ne1 db1
          trace tr1 none hwf2 hGN (Or.inr ⟨hokE, hNfresh⟩)
        exact GoodState_drop_suffix E ne1 db1 (trace ++ tr1) hGE
      · subst he
        dsimp only
        obtain ⟨hGN, hNfresh⟩ :=
          GoodState_next_batch E db trace ms _ clock ne nb db1 hG hnb
        exact GoodState_after_wrap_sub env.extPrefill E ne ne1 db1
          trace tr1 (some ncb) hwf2 hGN (Or.inr ⟨hokE, hNfresh⟩)
  have hdec := GoodState_after_wrap_sub env.decode [] ext.entries entries2
    ext.db (trace ++ ext.sent) tr2 cached1 hwf hext (Or.inl hokD)
  subst hr
  dsimp only
  rw [← List.append_assoc]
  exact hdec

theorem decodeLoop_preserves (cfg : Config) (envs : List StepEnv) :
    ∀ (E : Entries) (cached : Option Batch) (wt : Nat) (db : Db)
      (clock : Nat) (trace : Trace) (out : Db × Nat × Trace),
    decodeLoop cfg envs E cached wt db clock trace = .ok out →
    GoodState E db trace → envs.all stepEnvOK = true →
    GoodState [] out.1 out.2.2 := by
  induction envs with
  | nil =>
    intro E cached wt db clock trace out h hG hok
    cases cached with
    | none =>
      simp only [decodeLoop] at h
      injection h with h
      subst h
      exact GoodState_drop_suffix [] E db trace hG
    | some batch =>
      simp only [decodeLoop] at h
      injection h with h
      subst h
      exact GoodState_drop_suffix [] E db trace hG
  | cons env rest ih =>
    intro E cached wt db clock trace out h hG hok
    rw [List.all_cons, Bool.and_eq_true] at hok
    cases cached with
    | none =>
      simp only [decodeLoop] at h
      injection h with h
      subst h
      exact GoodState_drop_suffix [] E db trace hG
    | some batch =>
      simp only [decodeLoop] at h
      cases hs : decodeStep cfg env E batch wt db clock with
      | error e =>
        rw [hs] at h
        simp only [bind, Except.bind] at h
        exact Except.noConfusion h
      | ok r =>
        rw [hs] at h
        simp only [bind, Except.bind] at h
        have hGr := decodeStep_preserves cfg env E batch wt db clock r trace
          hs hG hok.1
        exact ih r.entries r.cached r.waiting_tokens r.db r.clock
          (trace ++ r.sent) out h hGr hok.2

theorem drainWork_preserves (cfg : Config) (benvs : List BatchEnv) :
    ∀ (db : Db) (clock : Nat) (trace : Trace) (out : Db × Nat × Trace),
    drainWork cfg benvs db clock trace = .ok out →
    GoodState [] db trace → benvs.all batchEnvOK = true →
    GoodState [] out.1 out.2.2 := by
  induction benvs with
  | nil =>
    intro db clock trace out h hG hok
    simp only [drainWork] at h
    injection h with h
    subst h
    exact hG
  | cons benv rest ih =>
    intro db clock trace out h hG hok
    rw [List.all_cons, Bool.and_eq_true] at hok
    have hokP : distinctIds benv.prefill = true := by
      have := hok.1
      simp only [batchEnvOK, Bool.and_eq_true] at this
      exact this.1
    have hokS : benv.steps.all stepEnvOK = true := by
      have := hok.1
      simp only [batchEnvOK, Bool.and_eq_true] at this
      exact this.2
    simp only [drainWork] at h
    cases hnb : db.next_batch none cfg.maxBatchSize clock with
    | none =>
      rw [hnb] at h
      injection h with h
      subst h
      exact hG
    | some v =>
      obtain ⟨V, b, db1⟩ := v
      rw [hnb] at h
      dsimp only at h
      cases hwf : wrap_future benv.prefill V with
      | error e =>
        rw [hwf] at h
        simp only [bind, Except.bind] at h
        exact Except.noConfusion h
      | ok v2 =>
        obtain ⟨cached, E1, tr1⟩ := v2
        rw [hwf] at h
        simp only [bind, Except.bind] at h
        cases hdl : decodeLoop cfg benv.steps E1 cached 1 db1 (clock + 1)
            (trace ++ tr1) with
        | error e =>
          rw [hdl] at h
          simp only [bind, Except.bind] at h
          exact Except.noConfusion h
        | ok v3 =>
          obtain ⟨db2, clock2, trace2⟩ := v3
          rw [hdl] at h
          simp only [bind, Except.bind] at h
          obtain ⟨hGN, hNfresh⟩ := GoodState_next_batch [] db trace none
            cfg.maxBatchSize clock V b db1 hG hnb
          have hGE1 := GoodState_after_wrap_sub benv.prefill [] V E1 db1
            trace tr1 cached hwf hGN (Or.inr ⟨hokP, hNfresh⟩)
          have hG2 := decodeLoop_preserves cfg benv.steps E1 cached 1 db1
            (clock + 1) (trace ++ tr1) (db2, clock2, trace2) hdl hGE1 hokS
          exact ih db2 clock2 trace2 out h hG2 hok.2

theorem run_preserves (cfg : Config) (events : List RunEvent) :
    ∀ (db : Db) (clock : Nat) (trace : Trace) (out : Db × Nat × Trace),
    run cfg events db clock trace = .ok out →
    GoodState [] db trace → eventsOK events = true →
    GoodState [] out.1 out.2.2 := by
  induction events with
  | nil =>
    intro db clock trace out h hG hok
    simp only [run] at h
    injection h with h
    subst h
    exact hG
  | cons ev rest ih =>
    intro db clock trace out h hG hok
    cases ev with
    | append e =>
      simp only [run] at h
      simp only [eventsOK] at hok
      exact ih (db.append e).1 clock trace out h
        (GoodState_append_entry db trace e hG) hok
    | drain benvs =>
      simp only [run] at h
      simp only [eventsOK, Bool.and_eq_true] at hok
      cases hdw : drainWork cfg benvs db clock trace with
      | error e =>
        rw [hdw] at h
        simp only [bind, Except.bind] at h
        exact Except.noConfusion h
      | ok v =>
        obtain ⟨db1, clock1, trace1⟩ := v
        rw [hdw] at h
        simp only [bind, Except.bind] at h
        have hG1 := drainWork_preserves cfg benvs db clock trace
          (db1, clock1, trace1) hdw hG hok.1
        exact ih db1 clock1 trace1 out h hG1 hok.2


/-- Claim C6: in any dispatcher run from an empty queue whose backend
replies respect the backend contract (distinct request ids per reply,
prefill tokens only on prefill replies), every request whose stream
delivered an `End` received exactly the sequence `Prefill? Token* End`: at
most one `Prefill` and only first, zero or more `Token`s, exactly one
`End`, and nothing after it. -/
theorem stream_grammar (cfg : Config) (events : List RunEvent)
    (out : Db × Nat × Trace)
    (hok : eventsOK events = true)
    (hrun : run cfg events { entries := [], counter := 0, batchCounter := 0 }
      0 [] = .ok out) :
    ∀ r, (streamOf r out.2.2).any isEndMsg = true →
      endGrammar (streamOf r out.2.2) = true := by
  have hG0 : GoodState []
      { entries := [], counter := 0, batchCounter := 0 } [] := by
    refine ⟨List.nodup_nil, List.nodup_nil, by simp, by simp, by simp, by simp,
      ?_, by simp, ?_⟩
    · intro r _; rfl
    · intro r _; rfl
  have hGf := run_preserves cfg events _ 0 [] out hrun hG0 hok
  intro r hend
  exact endGrammar_of_sessionShape _ (hGf.othersOK r (by simp)) hend

/-- Claim C6, witness: the witness run satisfies the backend contract and
request 0's stream, which delivered an `End`, matches the grammar. -/
theorem stream_grammar_witness :
    eventsOK c6events = true ∧
    (streamOf 0 c6out.2.2).any isEndMsg = true ∧
    endGrammar (streamOf 0 c6out.2.2) = true :=
  ⟨by decide, by decide,
   stream_grammar wcfg c6events c6out (by decide) (by rfl) 0 (by decide)⟩

end Router
